import Mathlib

/-!
# Verification of the Pareto-dominance ranking core (`optuna/study/_multi_objective.py`)

This file gives a shallow embedding, in Lean 4, of the multi-objective
ranking core of the repository:

* `_normalize_value`, `_dominates` (record-level dominance predicate);
* `_get_feasible_trials`, `_get_pareto_front_trials_2d` (record-level front
  extraction for two objectives);
* `_is_pareto_front_2d`, `_is_pareto_front_nd`, `_is_pareto_front`
  (front detectors over unique lexicographically sorted value arrays);
* `_calculate_nondomination_rank` (layered rank calculator);
* `_fast_non_dominated_sort` (constrained rank orchestrator).

Numbers are modelled by rationals (`ℚ`), or kept generic over a decidable
linear order where the Python code is itself generic in the float entries.
`float("inf")` / `-float("inf")` are modelled by a three-way type `PFloat`.
A NaN constraint penalty is modelled by `Option` (with `none` for NaN):
the code only ever uses NaN entries through `np.isnan` masks, and NumPy
comparisons with NaN are elementwise false, which the definitions mirror.

Python exceptions are modelled by `Except` / a `PyResult` type that also
has a `diverge` constructor: the layering loop of
`_calculate_nondomination_rank` does not terminate on inputs whose number
of distinct rows is smaller than the effective `n_below` (the loop makes no
progress once the live set is empty but the resolved count is still below
`n_below`), and `diverge` records exactly those runs.  The loop itself is
translated with a fuel of `n_unique + 1`: a NumPy run either strips at
least one unique row per iteration (hence finishes within `n_unique`
iterations) or reaches an iteration that makes no progress, after which its
state repeats forever; the fuel exactly separates the two outcomes.
-/

set_option linter.unusedSectionVars false

set_option linter.unnecessarySimpa false

deriving instance DecidableEq for Except

namespace MultiObjective

/-! ## Data model: trial states, directions, normalized values -/

/-- Trial lifecycle states (`optuna.trial.TrialState`); only `complete`
matters to the dominance predicate. -/
inductive TrialState where
  | running
  | complete
  | pruned
  | fail
  | waiting
deriving DecidableEq, Repr

/-- Per-objective optimization direction (`StudyDirection`). -/
inductive StudyDirection where
  | minimize
  | maximize
deriving DecidableEq, Repr

/-- Normalized objective values: Python floats restricted to the values the
core actually produces, i.e. rationals together with `float("inf")` and
`-float("inf")`. -/
inductive PFloat where
  | negInf
  | fin (q : ℚ)
  | posInf
deriving DecidableEq, Repr

namespace PFloat

/-- Python unary minus on these floats. -/
def neg : PFloat → PFloat
  | negInf => posInf
  | fin q => fin (-q)
  | posInf => negInf

/-- The `<` comparison of Python floats, restricted to `PFloat`. -/
def ltB : PFloat → PFloat → Bool
  | negInf, negInf => false
  | negInf, _ => true
  | fin _, negInf => false
  | fin a, fin b => decide (a < b)
  | fin _, posInf => true
  | posInf, _ => false

/-- The `<=` comparison of Python floats, restricted to `PFloat`. -/
def leB : PFloat → PFloat → Bool
  | negInf, _ => true
  | fin _, negInf => false
  | fin a, fin b => decide (a ≤ b)
  | fin _, posInf => true
  | posInf, posInf => true
  | posInf, _ => false

end PFloat

/-- A frozen trial, as consumed by this core: its arrival number, state,
objective values (entries may be `None`), and the optional
`system_attrs["constraints"]` penalty vector. -/
structure Trial where
  number : Nat
  state : TrialState
  values : List (Option ℚ)
  constraints : Option (List ℚ)
deriving DecidableEq, Repr

/-! ## `_normalize_value` and `_dominates` -/

/-- `_normalize_value(value, direction)`: a missing value becomes
`float("inf")` first, and then the result is negated when the direction is
MAXIMIZE. -/
def normalizeValue (value : Option ℚ) (direction : StudyDirection) : PFloat :=
  let v : PFloat :=
    match value with
    | none => .posInf
    | some q => .fin q
  match direction with
  | .maximize => v.neg
  | .minimize => v

/-- Error message of `_dominates` for differing value-vector lengths. -/
def mismatchedTrialsMsg : String :=
  "Trials with different numbers of objectives cannot be compared."

/-- Error message of `_dominates` for a value/direction length mismatch. -/
def mismatchedDirectionsMsg : String :=
  "The number of the values and the number of the objectives are mismatched."

/-- `_dominates(trial0, trial1, directions)`.  A non-COMPLETE trial never
dominates and is dominated by any COMPLETE trial; two COMPLETE trials are
compared on normalized values after the two shape checks, with equal
normalized vectors declared incomparable. -/
def dominates (trial0 trial1 : Trial) (directions : List StudyDirection) :
    Except String Bool :=
  if trial0.state ≠ .complete then .ok false
  else if trial1.state ≠ .complete then .ok true
  else if trial0.values.length ≠ trial1.values.length then
    .error mismatchedTrialsMsg
  else if trial0.values.length ≠ directions.length then
    .error mismatchedDirectionsMsg
  else
    let normalizedValues0 :=
      (trial0.values.zip directions).map fun p => normalizeValue p.1 p.2
    let normalizedValues1 :=
      (trial1.values.zip directions).map fun p => normalizeValue p.1 p.2
    if normalizedValues0 = normalizedValues1 then .ok false
    else .ok ((normalizedValues0.zip normalizedValues1).all fun p => p.1.leB p.2)

/-! ## Record-level front extraction (`_get_pareto_front_trials_2d`) -/

/-- `_get_feasible_trials`: keeps trials whose constraints attribute is
absent or has all entries ≤ 0. -/
def getFeasibleTrials (trials : List Trial) : List Trial :=
  trials.filter fun trial =>
    match trial.constraints with
    | none => true
    | some cs => cs.all fun x => decide (x ≤ 0)

/-- The sort key of `_get_pareto_front_trials_2d`: the pair of normalized
values of the first two objectives. -/
def sortKey2d (directions : List StudyDirection) (t : Trial) : PFloat × PFloat :=
  (normalizeValue (t.values.getD 0 none) (directions.getD 0 .minimize),
   normalizeValue (t.values.getD 1 none) (directions.getD 1 .minimize))

/-- Lexicographic `<` on Python tuples of two floats. -/
def pairLtB (a b : PFloat × PFloat) : Bool :=
  a.1.ltB b.1 || (a.1 == b.1 && a.2.ltB b.2)

/-- One insertion step of a stable insertion sort: a new element is placed
after all existing elements whose key is not strictly greater. -/
def insertSorted (lt : Trial → Trial → Bool) (t : Trial) :
    List Trial → List Trial
  | [] => [t]
  | s :: rest => if lt t s then t :: s :: rest else s :: insertSorted lt t rest

/-- Stable sort (Python `list.sort`): elements are inserted in their
original order, each after its equals. -/
def stableSortBy (lt : Trial → Trial → Bool) (l : List Trial) : List Trial :=
  l.foldl (fun acc t => insertSorted lt t acc) []

/-- The sweep of `_get_pareto_front_trials_2d`: walk the key-sorted trials
keeping a last non-dominated trial, appending each trial that the last
accepted one does not dominate. -/
def paretoSweep (directions : List StudyDirection) :
    Trial → List Trial → Except String (List Trial)
  | _, [] => .ok []
  | last, t :: rest => do
    let d ← dominates last t directions
    if d then paretoSweep directions last rest
    else do
      let front ← paretoSweep directions t rest
      .ok (t :: front)

/-- `_get_pareto_front_trials_2d(trials, directions, consider_constraint)`:
filter to COMPLETE (and optionally feasible) trials, sort by the pair of
normalized values, sweep, and restore arrival order by sorting on
`trial.number`. -/
def getParetoFrontTrials2d (trials : List Trial)
    (directions : List StudyDirection) (considerConstraint : Bool) :
    Except String (List Trial) :=
  let ts := trials.filter fun t => t.state == .complete
  let ts := if considerConstraint then getFeasibleTrials ts else ts
  if ts.length = 0 then .ok []
  else
    let sorted :=
      stableSortBy (fun a b => pairLtB (sortKey2d directions a) (sortKey2d directions b)) ts
    match sorted with
    | [] => .ok []
    | t0 :: rest => do
      let front ← paretoSweep directions t0 rest
      .ok (stableSortBy (fun a b => decide (a.number < b.number)) (t0 :: front))

/-! ## Array-level machinery

The array-level engine (`_is_pareto_front*`, `_calculate_nondomination_rank`,
`_fast_non_dominated_sort`) is generic in its float entries: it only
compares them.  It is embedded over an arbitrary decidable linear order. -/

section ArrayLevel

variable {α : Type} [LinearOrder α] [Inhabited α]

/-- Boolean-mask selection `a[mask]` of NumPy. -/
def selectMask : List β → List Bool → List β
  | [], _ => []
  | _, [] => []
  | x :: xs, b :: bs => if b then x :: selectMask xs bs else selectMask xs bs

/-- Boolean-mask assignment `a[mask] = vals` of NumPy: positions where the
mask is true take successive entries of `vals`. -/
def maskAssign : List Int → List Bool → List Int → List Int
  | [], _, _ => []
  | arr, [], _ => arr
  | a :: as_, b :: bs, vals =>
    if b then vals.headD a :: maskAssign as_ bs vals.tail
    else a :: maskAssign as_ bs vals

/-- `np.max(xs, initial=d)`. -/
def listMaxD (xs : List Int) (d : Int) : Int := xs.foldl max d

/-- Lexicographic strict comparison of two rows, as used by `np.unique` on
a 2-d array (`axis=0` sorts rows lexicographically, first column primary). -/
def rowLtB : List α → List α → Bool
  | [], [] => false
  | [], _ :: _ => true
  | _ :: _, [] => false
  | a :: as_, b :: bs =>
    if a < b then true else if b < a then false else rowLtB as_ bs

/-- One step of sorted duplicate-free insertion (used to model `np.unique`). -/
def insertRow (r : List α) : List (List α) → List (List α)
  | [] => [r]
  | s :: rest =>
    if rowLtB r s then r :: s :: rest
    else if r = s then s :: rest
    else s :: insertRow r rest

/-- The sorted duplicate-free row list of `np.unique(loss_values, axis=0)`. -/
def uniqueLexsorted (l : List (List α)) : List (List α) :=
  l.foldr insertRow []

/-- Scalar counterpart of `uniqueLexsorted`, for `np.unique` on a 1-d array. -/
def insertVal (x : α) : List α → List α
  | [] => [x]
  | y :: rest =>
    if x < y then x :: y :: rest
    else if x = y then y :: rest
    else y :: insertVal x rest

/-- Sorted duplicate-free values of `np.unique` on a 1-d array. -/
def uniqueSorted (xs : List α) : List α :=
  xs.foldr insertVal []

/-- The `return_inverse` indices of `np.unique` on a 1-d array: each entry is
replaced by its index in the sorted unique values, i.e. its dense rank. -/
def denseRank (xs : List α) : List Int :=
  xs.map fun x => ((uniqueSorted xs).indexOf x : Int)

/-! ### Front detectors -/

/-- `np.minimum.accumulate`: entry `i` of the result is the minimum of the
first `i + 1` input entries. -/
def cumminAux (cur : α) : List α → List α
  | [] => []
  | y :: ys => min cur y :: cumminAux (min cur y) ys

/-- `np.minimum.accumulate` (running minimum). -/
def cummin : List α → List α
  | [] => []
  | x :: xs => x :: cumminAux x xs

/-- `_is_pareto_front_2d(unique_lexsorted_loss_values)`: the running-minimum
sweep on the second column.  Row 0 is always on the front; row `i ≥ 1` is on
the front iff its column-1 value equals the running minimum and that minimum
strictly improved at `i`. -/
def isParetoFront2d (l : List (List α)) : List Bool :=
  let value1 := l.map fun r => r.getD 1 default
  let cm := cummin value1
  let isValue1Min := (cm.zip value1).map fun p => p.1 == p.2
  let isValue1NewMin := (cm.tail.zip cm).map fun p => decide (p.1 < p.2)
  match l with
  | [] => []
  | _ :: _ =>
    true :: ((isValue1Min.tail.zip isValue1NewMin).map fun p => p.1 && p.2)

/-- Recursive reformulation of the tail of the 2-d sweep, threading the
running minimum: entry `i` is true iff the value strictly improves on the
minimum of the accumulator and all earlier values.  It is proved equal to
the `cummin`-based pipeline of `isParetoFront2d`. -/
def front2dAux (cur : α) : List α → List Bool
  | [] => []
  | v :: vs => decide (v < cur) :: front2dAux (min cur v) vs

/-- `np.any(a < b, axis=1)` for one row pair: some coordinate of `a` is
strictly below the corresponding coordinate of `b`. -/
def anyLt (a b : List α) : Bool :=
  (a.zip b).any fun p => decide (p.1 < p.2)

theorem selectMask_length_le (l : List β) (mask : List Bool) :
    (selectMask l mask).length ≤ l.length := by
  induction l generalizing mask with
  | nil => simp [selectMask]
  | cons x xs ih =>
    cases mask with
    | nil => simp [selectMask]
    | cons b bs =>
      simp only [selectMask]
      split
      · simpa using Nat.succ_le_succ (ih bs)
      · exact le_trans (ih bs) (Nat.le_succ _)

/-- The loop of `_is_pareto_front_nd`, over rows tagged with their original
positions: mark the current top row as on the front and keep only the rows
that are strictly better than the top on some axis. -/
def ndFrontIndices : List (Nat × List α) → List Nat
  | [] => []
  | (i, r) :: rest =>
    i :: ndFrontIndices (selectMask rest (rest.map fun p => anyLt p.2 r))
termination_by pl => pl.length
decreasing_by
  simp only [List.length_cons]
  exact Nat.lt_succ_of_le (selectMask_length_le _ _)

/-- `_is_pareto_front_nd(unique_lexsorted_loss_values)`: the boolean mask of
marked positions. -/
def isParetoFrontNd (l : List (List α)) : List Bool :=
  let marked := ndFrontIndices l.enum
  (List.range l.length).map fun i => marked.contains i

/-- The error-free core of `_is_pareto_front(unique_lexsorted_loss_values)`:
dispatch over the objective count `m` (the second component of the array
shape, which NumPy keeps even for empty arrays, so it is passed
explicitly). The rank loop of `_calculate_nondomination_rank` only reaches
this dispatch with `m ≠ 1` (width 1 takes the dense-rank shortcut), where
it is total; the full entry point, whose 1-D branch reads the first row and
therefore fails on an empty array, is `isParetoFrontChecked` below. -/
def isParetoFront (m : Nat) (l : List (List α)) : List Bool :=
  if m = 1 then
    l.map fun r => r.getD 0 default == (l.headD []).getD 0 default
  else if m = 2 then isParetoFront2d l
  else isParetoFrontNd l

/-- NumPy's IndexError message for `unique_lexsorted_loss_values[0]` on an
array with zero rows. -/
def indexErrorMsg : String := "index 0 is out of bounds for axis 0 with size 0"

/-- `_is_pareto_front(unique_lexsorted_loss_values)` with its error path: the
1-D branch evaluates `unique_lexsorted_loss_values[:, 0] ==
unique_lexsorted_loss_values[0]`, and the first-row read raises IndexError
when the array has zero rows; the 2-D and N-D branches accept empty input
and return the empty mask. -/
def isParetoFrontChecked (m : Nat) (l : List (List α)) :
    Except String (List Bool) :=
  if m = 1 then
    match l with
    | [] => Except.error indexErrorMsg
    | r0 :: rest =>
      Except.ok ((r0 :: rest).map fun r => r.getD 0 default == r0.getD 0 default)
  else if m = 2 then Except.ok (isParetoFront2d l)
  else Except.ok (isParetoFrontNd l)

/-! ### `_calculate_nondomination_rank` -/

/-- The objective count `loss_values.shape[1]`, read off the first row (the
empty-input behaviour of the caller does not depend on it). -/
def numObjectives (loss : List (List α)) : Nat := (loss.headD []).length

/-- Assignment `ranks[indices] = rank` for a list of positions. -/
def assignRank (ranks : List Int) (indices : List Nat) (rank : Int) : List Int :=
  indices.foldl (fun a i => a.set i rank) ranks

/-- Python's truthiness test `n_below is not None and n_below <= 0`. -/
def nBelowNonpos (nBelow : Option Int) : Bool :=
  match nBelow with
  | some k => decide (k ≤ 0)
  | none => false

/-- Python's `n_below or len(loss_values)`: `None` and `0` are falsy and
become the length; any other integer (including negative ones) is kept. -/
def pyOrLen (nBelow : Option Int) (n : Nat) : Int :=
  match nBelow with
  | none => (n : Int)
  | some k => if k = 0 then (n : Int) else k

/-- The `while n_unique - indices.size < n_below` loop of
`_calculate_nondomination_rank`, with the live rows carried together with
their positions in the unique array (the code filters both by the same
front mask).  The fuel `n_unique + 1` exactly separates terminating NumPy
runs (at least one row is stripped per iteration, so at most `n_unique`
iterations happen) from non-terminating ones (an iteration that strips
nothing repeats the same state forever, and the result is `none`). -/
def rankLoop (m nUnique nBelow : Nat) :
    Nat → List Int → List (Nat × List α) → Int → Option (List Int)
  | fuel, ranks, live, rank =>
    if nUnique - live.length < nBelow then
      match fuel with
      | 0 => none
      | fuel' + 1 =>
        rankLoop m nUnique nBelow fuel'
          (assignRank ranks
            ((selectMask live (isParetoFront m (live.map Prod.snd))).map
              Prod.fst) rank)
          (selectMask live ((isParetoFront m (live.map Prod.snd)).map (!·)))
          (rank + 1)
    else
      some (assignRank ranks (live.map Prod.fst) rank)

/-- `_calculate_nondomination_rank(loss_values, n_below)`.  `n_below` keeps
Python's `or` semantics (`None` and `0` both become the input length; the
`n_below <= 0` early return fires first for `0`).  The single-objective
branch returns the dense rank of the values and ignores `n_below`.  The
result is `none` when the layering loop of the source does not terminate,
which happens exactly when the number of unique rows is smaller than the
effective `n_below`. -/
def calculateNondominationRank (loss : List (List α))
    (nBelow : Option Int := none) : Option (List Int) :=
  let n := loss.length
  if nBelowNonpos nBelow then
    some (List.replicate n 0)
  else
    let nb : Nat := (min (pyOrLen nBelow n) (n : Int)).toNat
    if numObjectives loss = 1 then
      some (denseRank (loss.map fun r => r.getD 0 default))
    else
      let u := uniqueLexsorted loss
      let nUnique := u.length
      match rankLoop (numObjectives loss) nUnique nb (nUnique + 1)
          (List.replicate nUnique 0) u.enum 0 with
      | none => none
      | some ranksU =>
        some (loss.map fun r => ranksU.getD (u.indexOf r) 0)

/-! ### `_fast_non_dominated_sort` -/

/-- Result of a Python call: a value, a raised exception, or divergence. -/
inductive PyResult (γ : Type) where
  | ok (val : γ)
  | raise (msg : String)
  | diverge
deriving DecidableEq, Repr

/-- Whether a `PyResult` is a raised exception. -/
def PyResult.isRaise : PyResult γ → Bool
  | .raise _ => true
  | _ => false

/-- NumPy's message when a multi-element boolean array is used as a truth
value. -/
def ambiguousTruthMsg : String :=
  "The truth value of an array with more than one element is ambiguous. Use a.any() or a.all()"

/-- The truth value of a NumPy boolean array, as evaluated by `if`:
a single element gives its own truth value, more than one element raises,
and an empty array is falsy (legacy NumPy semantics, with a deprecation
warning; no caller in this development reaches that case). -/
def npTruth : List Bool → Except String Bool
  | [] => .ok false
  | [b] => .ok b
  | _ :: _ :: _ => .error ambiguousTruthMsg

/-- Error message of `_fast_non_dominated_sort` for a penalty length
mismatch. -/
def penaltyLengthMsg : String :=
  "The length of penalty and loss_values must be same, but got len(penalty)=... and len(loss_values)=...."

/-- One entry of the mask `np.logical_and(~np.isnan(penalty), penalty <= 0)`:
a comparison with NaN is elementwise false, so a NaN entry is not feasible. -/
def feasibleMaskEntry [Zero α] (p : Option α) : Bool :=
  match p with
  | none => false
  | some q => decide (q ≤ 0)

/-- One entry of the mask `np.logical_and(~np.isnan(penalty), penalty > 0)`. -/
def infeasibleMaskEntry [Zero α] (p : Option α) : Bool :=
  match p with
  | none => false
  | some q => decide (0 < q)

/-- `_fast_non_dominated_sort(loss_values, penalty=..., n_below=...)`.

Penalty entries are `Option` values with `none` for NaN; `penalty <= 0` and
`penalty > 0` are elementwise false on NaN entries, which the two masks
mirror after their conjunction with `~is_penalty_nan`.  The branch guard
`if is_infeasible > 0:` of the source compares the boolean *mask* (not the
count `n_infeasible`) with `0` elementwise and then evaluates the truth
value of the resulting array, which is what `npTruth` models. -/
def fastNonDominatedSort [Zero α] (loss : List (List α))
    (penalty : Option (List (Option α)) := none)
    (nBelow : Option Int := none) : PyResult (List Int) :=
  match penalty with
  | none =>
    match calculateNondominationRank loss nBelow with
    | some ranks => .ok ranks
    | none => .diverge
  | some pen =>
    if pen.length ≠ loss.length then .raise penaltyLengthMsg
    else
      let n := loss.length
      let nondominationRank : List Int := List.replicate n (-1)
      let isPenaltyNan : List Bool := pen.map (·.isNone)
      let nb : Int := pyOrLen nBelow n
      let isFeasible : List Bool := pen.map feasibleMaskEntry
      match calculateNondominationRank (selectMask loss isFeasible) (some nb) with
      | none => .diverge
      | some feasibleRanks =>
        let rank1 := maskAssign nondominationRank isFeasible feasibleRanks
        let nb1 : Int := nb - (isFeasible.countP id : Int)
        let topRankInInfeasible := listMaxD (selectMask rank1 isFeasible) (-1) + 1
        let isInfeasible : List Bool := pen.map infeasibleMaskEntry
        let nInfeasible : Int := (isInfeasible.countP id : Int)
        match npTruth isInfeasible with
        | .error e => .raise e
        | .ok cond =>
          let step2 : List Int × Int :=
            if cond then
              let infeasPenalties :=
                (selectMask pen isInfeasible).map fun p => p.getD default
              let ranksInInfeas := denseRank infeasPenalties
              (maskAssign rank1 isInfeasible
                (ranksInInfeas.map (· + topRankInInfeasible)),
               nb1 - nInfeasible)
            else (rank1, nb1)
          let rank2 := step2.1
          let nb2 := step2.2
          let topRankInPenaltyNan :=
            listMaxD (selectMask rank2 (isPenaltyNan.map (!·))) (-1) + 1
          match calculateNondominationRank (selectMask loss isPenaltyNan)
              (some nb2) with
          | none => .diverge
          | some ranksInPenaltyNan =>
            .ok (maskAssign rank2 isPenaltyNan
              (ranksInPenaltyNan.map (· + topRankInPenaltyNan)))

/-! ### Spec-side dominance on bare value vectors

The spec's notion of dominance between two (already normalized) value
vectors: elementwise `≤` and not equal.  It is used to state the claims
about the front detectors and the rank calculator. -/

/-- `a` dominates `b`: same length, elementwise `≤`, and not equal. -/
def VecDom (a b : List α) : Prop :=
  a ≠ b ∧ a.length = b.length ∧ ∀ p ∈ a.zip b, p.1 ≤ p.2

instance (a b : List α) : Decidable (VecDom a b) := by
  unfold VecDom; infer_instance

/-- The mask the spec describes for a front detector: a vector is marked iff
no vector of the array dominates it. -/
def paretoMaskSpec (l : List (List α)) : List Bool :=
  l.map fun v => !(l.any fun u => decide (VecDom u v))

/-! ### Helper lemmas: masks, row order, dominance -/

theorem selectMask_map_eq_filter (l : List β) (f : β → Bool) :
    selectMask l (l.map f) = l.filter f := by
  induction l with
  | nil => rfl
  | cons x xs ih =>
    simp only [List.map_cons, selectMask, List.filter_cons]
    cases hf : f x <;> simp [hf, ih]

theorem selectMask_sublist (l : List β) (mask : List Bool) :
    (selectMask l mask).Sublist l := by
  induction l generalizing mask with
  | nil => simp [selectMask]
  | cons x xs ih =>
    cases mask with
    | nil => simp [selectMask]
    | cons b bs =>
      simp only [selectMask]
      split
      · exact (ih bs).cons₂ x
      · exact (ih bs).cons x

theorem rowLtB_irrefl (a : List α) : rowLtB a a = false := by
  induction a with
  | nil => rfl
  | cons x xs ih => simp [rowLtB, ih]

theorem rowLtB_asymm {a b : List α} (hab : rowLtB a b = true) :
    rowLtB b a = false := by
  induction a generalizing b with
  | nil =>
    cases b with
    | nil => simpa [rowLtB] using hab
    | cons y ys => rfl
  | cons x xs ih =>
    cases b with
    | nil => simpa [rowLtB] using hab
    | cons y ys =>
      simp only [rowLtB] at hab ⊢
      rcases lt_trichotomy x y with h | h | h
      · simp [h, not_lt_of_lt h]
      · subst h
        simp only [lt_irrefl, if_false] at hab ⊢
        exact ih hab
      · simp [h, not_lt_of_lt h] at hab

theorem rowLtB_trans {a b c : List α} (hab : rowLtB a b = true)
    (hbc : rowLtB b c = true) : rowLtB a c = true := by
  induction a generalizing b c with
  | nil =>
    cases c with
    | nil =>
      cases b with
      | nil => simpa [rowLtB] using hab
      | cons y ys => simpa [rowLtB] using hbc
    | cons z zs => rfl
  | cons x xs ih =>
    cases b with
    | nil => simp [rowLtB] at hab
    | cons y ys =>
      cases c with
      | nil => simp [rowLtB] at hbc
      | cons z zs =>
        simp only [rowLtB] at hab hbc ⊢
        rcases lt_trichotomy x y with hxy | hxy | hxy
        · rcases lt_trichotomy y z with hyz | hyz | hyz
          · simp [lt_trans hxy hyz]
          · subst hyz; simp [hxy]
          · simp [hyz, not_lt_of_lt hyz] at hbc
        · subst hxy
          rcases lt_trichotomy x z with hyz | hyz | hyz
          · simp [hyz]
          · subst hyz
            simp only [lt_irrefl, if_false] at hab hbc ⊢
            exact ih hab hbc
          · simp [hyz, not_lt_of_lt hyz] at hbc
        · simp [hxy, not_lt_of_lt hxy] at hab

theorem rowLtB_or_of_ne {a b : List α} (hlen : a.length = b.length)
    (hne : a ≠ b) : rowLtB a b = true ∨ rowLtB b a = true := by
  induction a generalizing b with
  | nil =>
    cases b with
    | nil => exact absurd rfl hne
    | cons y ys => simp at hlen
  | cons x xs ih =>
    cases b with
    | nil => simp at hlen
    | cons y ys =>
      simp only [List.length_cons, Nat.succ_inj] at hlen
      rcases lt_trichotomy x y with h | h | h
      · left; simp [rowLtB, h]
      · subst h
        have hne' : xs ≠ ys := fun h => hne (by rw [h])
        rcases ih hlen hne' with h' | h'
        · left; simp [rowLtB, h']
        · right; simp [rowLtB, h']
      · right; simp [rowLtB, h]

theorem VecDom.length_eq {a b : List α} (h : VecDom a b) :
    a.length = b.length := h.2.1

theorem VecDom.ne {a b : List α} (h : VecDom a b) : a ≠ b := h.1

theorem vecDom_irrefl (a : List α) : ¬VecDom a a := fun h => h.1 rfl

theorem vecDom_rowLtB {a b : List α} (h : VecDom a b) : rowLtB a b = true := by
  obtain ⟨hne, hlen, hle⟩ := h
  induction a generalizing b with
  | nil =>
    cases b with
    | nil => exact absurd rfl hne
    | cons y ys => simp at hlen
  | cons x xs ih =>
    cases b with
    | nil => simp at hlen
    | cons y ys =>
      simp only [List.length_cons, Nat.succ_inj] at hlen
      have hxy : x ≤ y := hle (x, y) (by simp [List.zip_cons_cons])
      rcases lt_or_eq_of_le hxy with h | h
      · simp [rowLtB, h]
      · subst h
        have hne' : xs ≠ ys := fun h => hne (by rw [h])
        have hle' : ∀ p ∈ xs.zip ys, p.1 ≤ p.2 := fun p hp =>
          hle p (by simp [List.zip_cons_cons, hp])
        simp only [rowLtB, lt_irrefl, if_false]
        exact ih hne' hlen hle'

theorem anyLt_eq_true_iff {a b : List α} :
    anyLt a b = true ↔ ∃ p ∈ a.zip b, p.1 < p.2 := by
  simp [anyLt]

theorem anyLt_self (a : List α) : anyLt a a = false := by
  induction a with
  | nil => rfl
  | cons x xs ih =>
    have hstep : anyLt (x :: xs) (x :: xs) = (decide (x < x) || anyLt xs xs) := rfl
    rw [hstep, ih]
    simp

theorem mem_zip_swap {a b : List α} {p : α × α} (h : p ∈ a.zip b) :
    p.swap ∈ b.zip a := by
  induction a generalizing b with
  | nil => simp [List.zip] at h
  | cons x xs ih =>
    cases b with
    | nil => simp [List.zip] at h
    | cons y ys =>
      rw [List.zip_cons_cons] at h
      rw [List.zip_cons_cons]
      rcases List.mem_cons.1 h with h | h
      · subst h; exact List.mem_cons_self _ _
      · exact List.mem_cons_of_mem _ (ih h)

/-- A row that beats `r` nowhere is pointwise at least `r` (equal lengths). -/
theorem vecDom_of_not_anyLt {r q : List α} (hlen : q.length = r.length)
    (hne : r ≠ q) (h : anyLt q r = false) : VecDom r q := by
  refine ⟨hne, hlen.symm, ?_⟩
  intro p hp
  by_contra hlt
  push_neg at hlt
  rw [Bool.eq_false_iff] at h
  apply h
  rw [anyLt_eq_true_iff]
  exact ⟨p.swap, mem_zip_swap hp, hlt⟩

theorem rowLtB_ne {a b : List α} (h : rowLtB a b = true) : a ≠ b := by
  intro heq
  subst heq
  rw [rowLtB_irrefl] at h
  exact Bool.false_ne_true h

theorem forall_zip_le_iff_getElem {a b : List α} :
    (∀ p ∈ a.zip b, p.1 ≤ p.2) ↔
      ∀ (i : Nat) (hia : i < a.length) (hib : i < b.length), a[i] ≤ b[i] := by
  constructor
  · intro h i hia hib
    have hi : i < (a.zip b).length := by
      rw [List.length_zip]; exact lt_min hia hib
    have := h (a.zip b)[i] (List.getElem_mem hi)
    simpa [List.getElem_zip] using this
  · intro h p hp
    rcases List.mem_iff_getElem.1 hp with ⟨i, hi, hpi⟩
    have hi' := hi
    rw [List.length_zip, lt_min_iff] at hi'
    rw [List.getElem_zip] at hpi
    rw [← hpi]
    exact h i hi'.1 hi'.2

theorem vecDom_iff_getElem {a b : List α} :
    VecDom a b ↔ a ≠ b ∧ a.length = b.length ∧
      ∀ (i : Nat) (hia : i < a.length) (hib : i < b.length), a[i] ≤ b[i] := by
  unfold VecDom
  rw [forall_zip_le_iff_getElem]

theorem vecDom_trans {a b c : List α} (hab : VecDom a b) (hbc : VecDom b c) :
    VecDom a c := by
  rw [vecDom_iff_getElem] at hab hbc ⊢
  obtain ⟨hne1, hlen1, hle1⟩ := hab
  obtain ⟨hne2, hlen2, hle2⟩ := hbc
  refine ⟨?_, hlen1.trans hlen2, ?_⟩
  · intro hac
    subst hac
    apply hne1
    apply List.ext_getElem hlen1
    intro i hia hib
    exact le_antisymm (hle1 i hia hib) (hle2 i hib (hlen2 ▸ hib))
  · intro i hia hic
    exact le_trans (hle1 i hia (hlen1 ▸ hia)) (hle2 i (hlen1 ▸ hia) hic)

/-- If `r` dominates `v` then `v` beats `r` on no axis. -/
theorem anyLt_eq_false_of_vecDom {r v : List α} (h : VecDom r v) :
    anyLt v r = false := by
  rw [Bool.eq_false_iff]
  intro hany
  rcases anyLt_eq_true_iff.1 hany with ⟨p, hp, hlt⟩
  have := h.2.2 p.swap (mem_zip_swap hp)
  simp only [Prod.fst_swap, Prod.snd_swap] at this
  exact absurd hlt (not_lt_of_le this)

theorem rowLtB_singleton (a b : α) : rowLtB [a] [b] = decide (a < b) := by
  rcases lt_trichotomy a b with h | h | h
  · simp [rowLtB, h]
  · subst h; simp [rowLtB]
  · simp [rowLtB, h, not_lt_of_lt h]

theorem vecDom_singleton {a b : α} : VecDom [a] [b] ↔ a < b := by
  constructor
  · rintro ⟨hne, -, hle⟩
    have := hle (a, b) (by simp [List.zip_cons_cons])
    rcases lt_or_eq_of_le this with h | h
    · exact h
    · have h' : a = b := h
      exact absurd (by rw [h']) hne
  · intro h
    refine ⟨by simpa using ne_of_lt h, rfl, ?_⟩
    intro p hp
    simp only [List.zip_cons_cons, List.zip_nil_right, List.mem_singleton] at hp
    subst hp
    exact le_of_lt h

theorem rowLtB_pair {a b c d : α} :
    rowLtB [a, b] [c, d] = true ↔ a < c ∨ (a = c ∧ b < d) := by
  rcases lt_trichotomy a c with h | h | h
  · simp [rowLtB, h]
  · subst h
    simp [rowLtB, rowLtB_singleton]
  · simp [rowLtB, h, not_lt_of_lt h, ne_of_gt h]

theorem vecDom_pair {a b c d : α} :
    VecDom [a, b] [c, d] ↔ a ≤ c ∧ b ≤ d ∧ ¬(a = c ∧ b = d) := by
  rw [vecDom_iff_getElem]
  constructor
  · rintro ⟨hne, -, hle⟩
    refine ⟨by simpa using hle 0 (by norm_num) (by norm_num),
      by simpa using hle 1 (by norm_num) (by norm_num), ?_⟩
    rintro ⟨rfl, rfl⟩
    exact hne rfl
  · rintro ⟨hac, hbd, hne⟩
    refine ⟨?_, rfl, ?_⟩
    · intro h
      rw [List.cons_eq_cons, List.cons_eq_cons] at h
      exact hne ⟨h.1, h.2.1⟩
    · intro i hia hib
      match i, hia with
      | 0, _ => simpa using hac
      | 1, _ => simpa using hbd

/-! ### Correctness of the front detectors on sorted deduplicated input -/

theorem paretoMaskSpec_length (l : List (List α)) :
    (paretoMaskSpec l).length = l.length := by
  simp [paretoMaskSpec]

theorem paretoMaskSpec_getElem (l : List (List α)) (i : Nat) (hi : i < l.length)
    (hpi : i < (paretoMaskSpec l).length) :
    (paretoMaskSpec l)[i] = !(l.any fun u => decide (VecDom u l[i])) := by
  simp [paretoMaskSpec]

/-- No row of a strictly lexicographically sorted list dominates an
earlier-or-equal row: a dominating row is lexicographically smaller. -/
theorem not_vecDom_of_le {l : List (List α)}
    (hsort : l.Pairwise fun a b => rowLtB a b = true)
    {i j : Nat} (hi : i < l.length) (hj : j < l.length) (hij : i ≤ j) :
    ¬VecDom l[j] l[i] := by
  intro hdom
  rcases lt_or_eq_of_le hij with hlt | heq
  · have hlex := (List.pairwise_iff_getElem.1 hsort) i j hi hj hlt
    exact absurd (rowLtB_asymm hlex) (by rw [vecDom_rowLtB hdom]; simp)
  · subst heq
    exact vecDom_irrefl _ hdom

theorem isParetoFront_one_correct (l : List (List α))
    (hrect : ∀ r ∈ l, r.length = 1)
    (hsort : l.Pairwise fun a b => rowLtB a b = true) :
    isParetoFront 1 l = paretoMaskSpec l := by
  cases l with
  | nil => rfl
  | cons r0 rest =>
    rcases List.length_eq_one.1 (hrect r0 (List.mem_cons_self _ _)) with ⟨x0, rfl⟩
    have hform : isParetoFront 1 ([x0] :: rest) =
        ([x0] :: rest).map (fun r => r.getD 0 default == x0) := rfl
    apply List.ext_getElem
    · rw [hform]; simp [paretoMaskSpec]
    intro i hi1 hi2
    have hi : i < ([x0] :: rest).length := by
      rw [hform] at hi1; simpa using hi1
    simp only [hform, List.getElem_map]
    rw [paretoMaskSpec_getElem _ i hi]
    rcases List.length_eq_one.1 (hrect _ (List.getElem_mem hi)) with ⟨xi, hxi⟩
    rw [hxi]
    have h0 : (0 : Nat) < ([x0] :: rest).length := by simp
    cases Nat.eq_zero_or_pos i with
    | inl hzero =>
      subst hzero
      have hx0i : x0 = xi := by simpa using hxi
      subst hx0i
      suffices hfalse : (([x0] :: rest).any fun u => decide (VecDom u [x0])) = false by
        rw [hfalse]; simp
      rw [Bool.eq_false_iff]
      intro hany
      rcases List.any_eq_true.1 hany with ⟨u, hu, hdu⟩
      rcases List.mem_iff_getElem.1 hu with ⟨j, hjl, hju⟩
      rw [decide_eq_true_eq] at hdu
      rw [← hju] at hdu
      exact not_vecDom_of_le hsort h0 hjl (Nat.zero_le j) hdu
    | inr hpos =>
      have hlex := (List.pairwise_iff_getElem.1 hsort) 0 i h0 hi hpos
      rw [hxi] at hlex
      have hx0lt : x0 < xi := by
        have : rowLtB [x0] [xi] = true := hlex
        rwa [rowLtB_singleton, decide_eq_true_eq] at this
      have hany : (([x0] :: rest).any fun u => decide (VecDom u [xi])) = true :=
        List.any_eq_true.2 ⟨[x0], List.mem_cons_self _ _,
          decide_eq_true (vecDom_singleton.2 hx0lt)⟩
      rw [hany]
      simp only [Bool.not_true]
      rw [Bool.eq_false_iff]
      intro hbeq
      have : xi = x0 := by simpa using hbeq
      subst this
      exact lt_irrefl _ hx0lt

theorem front2dAux_length (cur : α) (vs : List α) :
    (front2dAux cur vs).length = vs.length := by
  induction vs generalizing cur with
  | nil => rfl
  | cons y ys ih => simp [front2dAux, ih]

theorem front2d_zip_aux (vs : List α) (cur : α) :
    ((((cumminAux cur vs).zip vs).map fun p => p.1 == p.2).zip
        (((cumminAux cur vs).zip (cur :: cumminAux cur vs)).map
          fun p => decide (p.1 < p.2))).map (fun p => p.1 && p.2) =
      front2dAux cur vs := by
  induction vs generalizing cur with
  | nil => rfl
  | cons y ys ih =>
    simp only [cumminAux, front2dAux, List.zip_cons_cons, List.map_cons]
    congr 1
    · rcases lt_or_le y cur with h | h
      · rw [min_eq_right (le_of_lt h)]
        simp [h]
      · rw [min_eq_left h]
        simp [not_lt_of_le h, lt_irrefl]
    · exact ih (min cur y)

theorem isParetoFront2d_eq (l : List (List α)) :
    isParetoFront2d l =
      match l with
      | [] => []
      | r :: rs => true :: front2dAux (r.getD 1 default)
          (rs.map fun r' => r'.getD 1 default) := by
  cases l with
  | nil => rfl
  | cons r rs =>
    simp only [isParetoFront2d, List.map_cons, cummin, List.zip_cons_cons,
      List.tail_cons]
    rw [← front2d_zip_aux (rs.map fun r' => r'.getD 1 default) (r.getD 1 default)]

theorem isParetoFront2d_length (l : List (List α)) :
    (isParetoFront2d l).length = l.length := by
  rw [isParetoFront2d_eq]
  cases l with
  | nil => rfl
  | cons r rs => simp [front2dAux_length]

theorem front2dAux_getD (vs : List α) (cur : α) (i : Nat) (hi : i < vs.length) :
    ((front2dAux cur vs).getD i false = true ↔
      (vs.getD i default < cur ∧
        ∀ j, j < i → vs.getD i default < vs.getD j default)) := by
  induction vs generalizing cur i with
  | nil => simp at hi
  | cons y ys ih =>
    cases i with
    | zero =>
      simp [front2dAux]
    | succ k =>
      simp only [front2dAux, List.getD_cons_succ]
      rw [ih (min cur y) k (by simpa using hi)]
      constructor
      · rintro ⟨h1, h2⟩
        rw [lt_min_iff] at h1
        refine ⟨h1.1, ?_⟩
        intro j hj
        cases j with
        | zero => simpa using h1.2
        | succ j' =>
          rw [List.getD_cons_succ]
          exact h2 j' (by omega)
      · rintro ⟨h1, h2⟩
        refine ⟨lt_min_iff.2 ⟨h1, by simpa using h2 0 (by omega)⟩, ?_⟩
        intro j hj
        have := h2 (j + 1) (by omega)
        rwa [List.getD_cons_succ] at this

/-- In a strictly lexicographically sorted list of length-2 rows, row `j`
dominates row `i` exactly when `j` comes before `i` and its second column
is at most that of row `i`. -/
theorem vecDom_iff_earlier_2d {l : List (List α)}
    (hrect : ∀ r ∈ l, r.length = 2)
    (hsort : l.Pairwise fun a b => rowLtB a b = true)
    {i j : Nat} (hi : i < l.length) (hj : j < l.length) :
    VecDom l[j] l[i] ↔
      j < i ∧ (l[j]).getD 1 default ≤ (l[i]).getD 1 default := by
  rcases List.length_eq_two.1 (hrect _ (List.getElem_mem hj)) with ⟨a, b, hab⟩
  rcases List.length_eq_two.1 (hrect _ (List.getElem_mem hi)) with ⟨c, d, hcd⟩
  rw [hab, hcd]
  constructor
  · intro hdom
    rcases vecDom_pair.1 hdom with ⟨hac, hbd, hne⟩
    have hji : j < i := by
      rcases Nat.lt_trichotomy j i with h | h | h
      · exact h
      · subst h
        rw [hab] at hcd
        rw [List.cons_eq_cons, List.cons_eq_cons] at hcd
        exact absurd ⟨hcd.1, hcd.2.1⟩ hne
      · have hlex := (List.pairwise_iff_getElem.1 hsort) i j hi hj h
        rw [hab, hcd] at hlex
        rcases rowLtB_pair.1 hlex with h' | h'
        · exact absurd hac (not_le_of_lt h')
        · rcases h' with ⟨rfl, h''⟩
          exact absurd hbd (not_le_of_lt h'')
    exact ⟨hji, by simpa using hbd⟩
  · rintro ⟨hji, hbd⟩
    have hlex := (List.pairwise_iff_getElem.1 hsort) j i hj hi hji
    rw [hab, hcd] at hlex
    rw [vecDom_pair]
    rcases rowLtB_pair.1 hlex with h' | h'
    · refine ⟨le_of_lt h', by simpa using hbd, ?_⟩
      rintro ⟨rfl, -⟩
      exact lt_irrefl _ h'
    · rcases h' with ⟨rfl, h''⟩
      exact ⟨le_refl _, by simpa using hbd, fun hh => lt_irrefl _ (hh.2 ▸ h'')⟩

theorem any_vecDom_iff (l : List (List α)) (v : List α) :
    (l.any fun u => decide (VecDom u v)) = true ↔
      ∃ j, ∃ hj : j < l.length, VecDom (l[j]) v := by
  rw [List.any_eq_true]
  constructor
  · rintro ⟨u, hu, hdu⟩
    rcases List.mem_iff_getElem.1 hu with ⟨j, hj, hju⟩
    refine ⟨j, hj, ?_⟩
    rw [hju]
    exact of_decide_eq_true hdu
  · rintro ⟨j, hj, hdom⟩
    exact ⟨_, List.getElem_mem hj, decide_eq_true hdom⟩

theorem getD_eq_getElem' {β : Type} (l : List β) (d : β) (i : Nat)
    (hi : i < l.length) : l.getD i d = l[i] := by
  rw [List.getD_eq_getElem?_getD, List.getElem?_eq_getElem hi]
  rfl

theorem getD_map_of_lt {β : Type} (l : List β) (f : β → α) (i : Nat)
    (hi : i < l.length) (d : α) : (l.map f).getD i d = f (l[i]) := by
  rw [getD_eq_getElem' _ _ _ (by simpa using hi), List.getElem_map]

theorem isParetoFront_two_correct (l : List (List α))
    (hrect : ∀ r ∈ l, r.length = 2)
    (hsort : l.Pairwise fun a b => rowLtB a b = true) :
    isParetoFront2d l = paretoMaskSpec l := by
  cases l with
  | nil => rfl
  | cons r0 rest =>
    apply List.ext_getElem
    · rw [isParetoFront2d_length, paretoMaskSpec_length]
    intro i hi1 hi2
    have hi : i < (r0 :: rest).length := by rwa [isParetoFront2d_length] at hi1
    rw [paretoMaskSpec_getElem _ i hi]
    simp only [isParetoFront2d_eq]
    cases i with
    | zero =>
      have hfalse : ((r0 :: rest).any fun u =>
          decide (VecDom u ((r0 :: rest)[0]))) = false := by
        rw [Bool.eq_false_iff]
        intro hany
        rcases (any_vecDom_iff _ _).1 hany with ⟨j, hj, hdom⟩
        exact not_vecDom_of_le hsort hi hj (Nat.zero_le _) hdom
      rw [hfalse]
      rfl
    | succ k =>
      have hk : k < rest.length := by simpa using hi
      have hkvs : k < (rest.map fun r' => r'.getD 1 default).length := by
        simpa using hk
      have hflen : k < (front2dAux (r0.getD 1 default)
          (rest.map fun r' => r'.getD 1 default)).length := by
        rw [front2dAux_length]; exact hkvs
      have hflen2 : k + 1 < (true :: front2dAux (r0.getD 1 default)
          (rest.map fun r' => r'.getD 1 default)).length := by
        simpa using hflen
      have hLHS : (true :: front2dAux (r0.getD 1 default)
            (rest.map fun r' => r'.getD 1 default))[k + 1] =
          (front2dAux (r0.getD 1 default)
            (rest.map fun r' => r'.getD 1 default)).getD k false := by
        rw [List.getElem_cons_succ, getD_eq_getElem' _ _ _ hflen]
      rw [hLHS]
      have hchar := front2dAux_getD (rest.map fun r' => r'.getD 1 default)
        (r0.getD 1 default) k hkvs
      have hvk : (rest.map fun r' => r'.getD 1 default).getD k default =
          ((r0 :: rest)[k + 1]).getD 1 default := by
        rw [getD_map_of_lt _ _ _ hk, List.getElem_cons_succ]
      have hvj : ∀ (j : Nat) (hj : j < k) (hjl : j + 1 < (r0 :: rest).length),
          (rest.map fun r' => r'.getD 1 default).getD j default =
            ((r0 :: rest)[j + 1]).getD 1 default := by
        intro j hj hjl
        rw [getD_map_of_lt _ _ _ (lt_trans hj hk), List.getElem_cons_succ]
      have hdom_iff : ((r0 :: rest).any fun u =>
            decide (VecDom u ((r0 :: rest)[k + 1]))) = true ↔
          ∃ j, ∃ hj : j < k + 1,
            (((r0 :: rest)[j]).getD 1 default ≤
              ((r0 :: rest)[k + 1]).getD 1 default) := by
        rw [any_vecDom_iff]
        constructor
        · rintro ⟨j, hj, hdom⟩
          rcases (vecDom_iff_earlier_2d hrect hsort hi hj).1 hdom with ⟨hji, hle⟩
          exact ⟨j, hji, hle⟩
        · rintro ⟨j, hj, hle⟩
          exact ⟨j, lt_trans hj hi,
            (vecDom_iff_earlier_2d hrect hsort hi (lt_trans hj hi)).2 ⟨hj, hle⟩⟩
      cases hany : (r0 :: rest).any fun u =>
          decide (VecDom u ((r0 :: rest)[k + 1])) with
      | true =>
        rcases hdom_iff.1 hany with ⟨j, hj, hle⟩
        simp only [Bool.not_true]
        rw [Bool.eq_false_iff]
        intro htrue
        rcases hchar.1 htrue with ⟨h1, h2⟩
        rw [hvk] at h1 h2
        cases j with
        | zero =>
          have h0l : 0 < (r0 :: rest).length := by simp
          have h0 : ((r0 :: rest)[0]).getD 1 default =
              r0.getD 1 default := rfl
          rw [h0] at hle
          exact absurd h1 (not_lt_of_le hle)
        | succ j' =>
          have hj' : j' < k := by omega
          have := h2 j' hj'
          rw [hvj j' hj' (by simp; omega)] at this
          exact absurd this (not_lt_of_le hle)
      | false =>
        simp only [Bool.not_false]
        rw [hchar, hvk]
        constructor
        · by_contra hcon
          push_neg at hcon
          apply absurd hany
          rw [Bool.eq_false_iff] at hany ⊢
          intro h
          exact h (hdom_iff.2 ⟨0, by omega, hcon⟩)
        · intro j hj
          by_contra hcon
          push_neg at hcon
          rw [hvj j hj (by simp; omega)] at hcon
          have : ((r0 :: rest).any fun u =>
              decide (VecDom u ((r0 :: rest)[k + 1]))) = true :=
            hdom_iff.2 ⟨j + 1, by omega, hcon⟩
          rw [hany] at this
          exact Bool.false_ne_true this

/-- The peeling loop of `_is_pareto_front_nd` keeps exactly the tagged rows
dominated by no row of the input, in order. -/
theorem ndFrontIndices_eq_filter (m : Nat) (pl : List (Nat × List α))
    (hrect : ∀ p ∈ pl, p.2.length = m)
    (hsort : pl.Pairwise fun p q => rowLtB p.2 q.2 = true) :
    ndFrontIndices pl =
      (pl.filter fun p => !(pl.any fun q => decide (VecDom q.2 p.2))).map
        Prod.fst := by
  suffices hgen : ∀ (n : Nat) (pl : List (Nat × List α)),
      pl.length = n →
      (∀ p ∈ pl, p.2.length = m) →
      (pl.Pairwise fun p q => rowLtB p.2 q.2 = true) →
      ndFrontIndices pl =
        (pl.filter fun p => !(pl.any fun q => decide (VecDom q.2 p.2))).map
          Prod.fst by
    exact hgen pl.length pl rfl hrect hsort
  clear hrect hsort pl
  intro n
  induction n using Nat.strong_induction_on with
  | _ n ih =>
  intro pl hn hrect hsort
  cases pl with
  | nil => rw [ndFrontIndices]; rfl
  | cons hd rest =>
    obtain ⟨i, r⟩ := hd
    have hhead : ∀ q ∈ rest, rowLtB r q.2 = true := by
      intro q hq
      exact (List.pairwise_cons.1 hsort).1 q hq
    have hrest_sort : rest.Pairwise fun p q => rowLtB p.2 q.2 = true :=
      (List.pairwise_cons.1 hsort).2
    have hlenr : r.length = m := hrect (i, r) (List.mem_cons_self _ _)
    -- the head row is dominated by nothing in the list
    have hheadnd : (((i, r) :: rest).any fun q => decide (VecDom q.2 r)) =
        false := by
      rw [Bool.eq_false_iff]
      intro hany
      rcases List.any_eq_true.1 hany with ⟨q, hq, hdq⟩
      rw [decide_eq_true_eq] at hdq
      rcases List.mem_cons.1 hq with rfl | hq
      · exact vecDom_irrefl _ hdq
      · have := vecDom_rowLtB hdq
        rw [rowLtB_asymm (hhead q hq)] at this
        exact Bool.false_ne_true this
    rw [ndFrontIndices, selectMask_map_eq_filter]
    rw [List.filter_cons, hheadnd]
    simp only [Bool.not_false, if_pos]
    have hkeptlen : (rest.filter fun p => anyLt p.2 r).length < n := by
      have := List.length_filter_le (fun p => anyLt p.2 r) rest
      simp only [List.length_cons] at hn
      omega
    have hkeptrect : ∀ p ∈ rest.filter fun p => anyLt p.2 r, p.2.length = m :=
      fun p hp => hrect p (List.mem_cons_of_mem _ (List.mem_of_mem_filter hp))
    have hkeptsort : (rest.filter fun p => anyLt p.2 r).Pairwise
        fun p q => rowLtB p.2 q.2 = true :=
      hrest_sort.sublist (List.filter_sublist _)
    rw [ih _ hkeptlen _ rfl hkeptrect hkeptsort]
    rw [List.filter_filter]
    congr 1
    congr 1
    apply List.filter_congr
    intro p hp
    have hlenp : p.2.length = m := hrect p (List.mem_cons_of_mem _ hp)
    have hne_rp : r ≠ p.2 := rowLtB_ne (hhead p hp)
    cases hA : anyLt p.2 r with
    | false =>
      have hdom : VecDom r p.2 :=
        vecDom_of_not_anyLt (hlenp.trans hlenr.symm) hne_rp hA
      have hany : (((i, r) :: rest).any fun q => decide (VecDom q.2 p.2)) =
          true :=
        List.any_eq_true.2 ⟨(i, r), List.mem_cons_self _ _, decide_eq_true hdom⟩
      rw [hany]
      simp
    | true =>
      have hiff : ((rest.filter fun p' => anyLt p'.2 r).any
            fun q => decide (VecDom q.2 p.2)) =
          (((i, r) :: rest).any fun q => decide (VecDom q.2 p.2)) := by
        apply Bool.eq_iff_iff.2
        rw [List.any_eq_true, List.any_eq_true]
        constructor
        · rintro ⟨q, hq, hdq⟩
          exact ⟨q, List.mem_cons_of_mem _ (List.mem_of_mem_filter hq), hdq⟩
        · rintro ⟨q, hq, hdq⟩
          rw [decide_eq_true_eq] at hdq
          rcases List.mem_cons.1 hq with rfl | hq
          · have := anyLt_eq_false_of_vecDom hdq
            rw [hA] at this
            exact absurd this (by simp)
          · cases hB : anyLt q.2 r with
            | true =>
              exact ⟨q, List.mem_filter.2 ⟨hq, hB⟩, decide_eq_true hdq⟩
            | false =>
              have hlenq : q.2.length = m := hrect q (List.mem_cons_of_mem _ hq)
              have hne_rq : r ≠ q.2 := rowLtB_ne (hhead q hq)
              have hdomrq : VecDom r q.2 :=
                vecDom_of_not_anyLt (hlenq.trans hlenr.symm) hne_rq hB
              have hdomrp : VecDom r p.2 := vecDom_trans hdomrq hdq
              have := anyLt_eq_false_of_vecDom hdomrp
              rw [hA] at this
              exact absurd this (by simp)
      simp only [Bool.and_true]
      rw [hiff]

theorem any_enum_vecDom_eq (l : List (List α)) (v : List α) :
    (l.enum.any fun q => decide (VecDom q.2 v)) =
      (l.any fun u => decide (VecDom u v)) := by
  apply Bool.eq_iff_iff.2
  rw [List.any_eq_true, List.any_eq_true]
  constructor
  · rintro ⟨q, hq, hdq⟩
    rcases List.exists_mem_enum.1 ⟨q, hq, rfl⟩ with ⟨j, hj, hqj⟩
    refine ⟨l[j], List.getElem_mem hj, ?_⟩
    rw [← show ((j : Nat), l[j]).2 = l[j] from rfl, ← hqj]
    exact hdq
  · rintro ⟨u, hu, hdu⟩
    rcases List.mem_iff_getElem.1 hu with ⟨j, hj, hju⟩
    refine ⟨(j, l[j]), ?_, by rw [show ((j : Nat), l[j]).2 = l[j] from rfl, hju]; exact hdu⟩
    rw [List.mk_mem_enum_iff_getElem?]
    exact List.getElem?_eq_getElem hj

theorem isParetoFrontNd_correct (m : Nat) (l : List (List α))
    (hrect : ∀ r ∈ l, r.length = m)
    (hsort : l.Pairwise fun a b => rowLtB a b = true) :
    isParetoFrontNd l = paretoMaskSpec l := by
  have hrect' : ∀ p ∈ l.enum, p.2.length = m := by
    rw [List.forall_mem_enum]
    intro i hi
    exact hrect _ (List.getElem_mem hi)
  have hsort' : l.enum.Pairwise fun p q => rowLtB p.2 q.2 = true := by
    rw [List.pairwise_iff_getElem]
    intro i j hi hj hij
    rw [List.getElem_enum, List.getElem_enum]
    exact (List.pairwise_iff_getElem.1 hsort) i j (by simpa using hi)
      (by simpa using hj) hij
  simp only [isParetoFrontNd]
  rw [ndFrontIndices_eq_filter m _ hrect' hsort']
  apply List.ext_getElem
  · simp [paretoMaskSpec]
  intro i hi1 hi2
  have hi : i < l.length := by simpa using hi1
  rw [paretoMaskSpec_getElem _ i hi]
  rw [List.getElem_map, List.getElem_range]
  apply Bool.eq_iff_iff.2
  rw [List.contains_iff_exists_mem_beq]
  constructor
  · rintro ⟨b, hb, hib⟩
    have hib' : i = b := by simpa using hib
    subst hib'
    rcases List.mem_map.1 hb with ⟨p, hp, hpi⟩
    rcases List.mem_filter.1 hp with ⟨hpe, hP⟩
    rcases List.exists_mem_enum.1 ⟨p, hpe, rfl⟩ with ⟨j, hj, hpj⟩
    rw [hpj] at hP hpi
    have hji : j = i := hpi
    subst hji
    rw [show ((j : Nat), l[j]).2 = l[j] from rfl, any_enum_vecDom_eq] at hP
    exact hP
  · intro hP
    refine ⟨i, ?_, by simp⟩
    apply List.mem_map.2
    refine ⟨(i, l[i]), ?_, rfl⟩
    apply List.mem_filter.2
    refine ⟨?_, ?_⟩
    · rw [List.mk_mem_enum_iff_getElem?]
      exact List.getElem?_eq_getElem hi
    · show (!(l.enum.any fun q => decide (VecDom q.2 ((i, l[i])).2))) = true
      rw [any_enum_vecDom_eq]
      exact hP

/-! ### Helper lemmas: assignments, unique sorting, counting -/

theorem assignRank_cons (ranks : List Int) (i : Nat) (is : List Nat)
    (rank : Int) :
    assignRank ranks (i :: is) rank = assignRank (ranks.set i rank) is rank :=
  rfl

theorem assignRank_length (idxs : List Nat) (ranks : List Int) (rank : Int) :
    (assignRank ranks idxs rank).length = ranks.length := by
  induction idxs generalizing ranks with
  | nil => rfl
  | cons i is ih => rw [assignRank_cons, ih, List.length_set]

theorem assignRank_getD_of_not_mem {idxs : List Nat} {j : Nat} (h : j ∉ idxs)
    (ranks : List Int) (rank d : Int) :
    (assignRank ranks idxs rank).getD j d = ranks.getD j d := by
  induction idxs generalizing ranks with
  | nil => rfl
  | cons i is ih =>
    have hji : j ≠ i := fun hh => h (hh ▸ List.mem_cons_self _ _)
    have hjs : j ∉ is := fun hh => h (List.mem_cons_of_mem _ hh)
    rw [assignRank_cons, ih hjs]
    rw [List.getD_eq_getElem?_getD, List.getD_eq_getElem?_getD,
      List.getElem?_set_ne (fun hh => hji hh.symm)]

theorem assignRank_getD_of_mem {idxs : List Nat} {j : Nat} (h : j ∈ idxs)
    (ranks : List Int) (hj : j < ranks.length) (rank d : Int) :
    (assignRank ranks idxs rank).getD j d = rank := by
  induction idxs generalizing ranks with
  | nil => simp at h
  | cons i is ih =>
    by_cases hjs : j ∈ is
    · rw [assignRank_cons]
      exact ih hjs _ (by rw [List.length_set]; exact hj)
    · have hji : j = i := by
        rcases List.mem_cons.1 h with hh | hh
        · exact hh
        · exact absurd hh hjs
      subst hji
      rw [assignRank_cons, assignRank_getD_of_not_mem hjs]
      rw [List.getD_eq_getElem?_getD, List.getElem?_set_self hj]
      rfl

theorem nodup_subset_countP_le {β : Type} [DecidableEq β] {l1 l2 : List β}
    (hnd : l1.Nodup) (hsub : ∀ x ∈ l1, x ∈ l2) (q : β → Bool) :
    l1.countP q ≤ l2.countP q := by
  rw [List.countP_eq_length_filter, List.countP_eq_length_filter]
  calc (l1.filter q).length = (l1.filter q).toFinset.card :=
        (List.toFinset_card_of_nodup (hnd.filter q)).symm
    _ ≤ (l2.filter q).toFinset.card := by
        apply Finset.card_le_card
        intro x hx
        rw [List.mem_toFinset, List.mem_filter] at hx
        rw [List.mem_toFinset, List.mem_filter]
        exact ⟨hsub x hx.1, hx.2⟩
    _ ≤ (l2.filter q).length := List.toFinset_card_le _

theorem nodup_lt_length_le {L : List Nat} (hnd : L.Nodup) (n : Nat)
    (hlt : ∀ i ∈ L, i < n) : L.length ≤ n := by
  calc L.length = L.toFinset.card := (List.toFinset_card_of_nodup hnd).symm
    _ ≤ (Finset.range n).card := by
        apply Finset.card_le_card
        intro x hx
        rw [List.mem_toFinset] at hx
        rw [Finset.mem_range]
        exact hlt x hx
    _ = n := Finset.card_range n

theorem indexOf_lt_length_of_mem {β : Type} [BEq β] [LawfulBEq β] {a : β}
    {l : List β} (h : a ∈ l) : l.indexOf a < l.length := by
  induction l with
  | nil => simp at h
  | cons b bs ih =>
    rw [List.indexOf_cons]
    cases hba : b == a with
    | true => simp
    | false =>
      rcases List.mem_cons.1 h with rfl | h
      · simp at hba
      · simp only [cond_false, List.length_cons]
        exact Nat.succ_lt_succ (ih h)

theorem getElem?_indexOf_of_mem {β : Type} [BEq β] [LawfulBEq β] {a : β}
    {l : List β} (h : a ∈ l) : l[l.indexOf a]? = some a := by
  induction l with
  | nil => simp at h
  | cons b bs ih =>
    rw [List.indexOf_cons]
    cases hba : b == a with
    | true =>
      have : b = a := eq_of_beq hba
      simp [this]
    | false =>
      rcases List.mem_cons.1 h with rfl | h
      · simp at hba
      · simpa using ih h

theorem getElem_indexOf_of_mem {β : Type} [BEq β] [LawfulBEq β] {a : β}
    {l : List β} (h : a ∈ l) (hlt : l.indexOf a < l.length) :
    l[l.indexOf a] = a := by
  have h1 := getElem?_indexOf_of_mem h
  rw [List.getElem?_eq_getElem hlt] at h1
  exact Option.some.inj h1

theorem indexOf_getElem_of_nodup {β : Type} [BEq β] [LawfulBEq β] {l : List β}
    (hnd : l.Nodup) (i : Nat) (hi : i < l.length) :
    l.indexOf (l[i]) = i := by
  induction l generalizing i with
  | nil => simp at hi
  | cons b bs ih =>
    cases i with
    | zero =>
      rw [List.getElem_cons_zero, List.indexOf_cons]
      simp
    | succ k =>
      rw [List.getElem_cons_succ, List.indexOf_cons]
      have hk : k < bs.length := by simpa using hi
      have hbne : b ≠ bs[k] := by
        intro heq
        exact (List.nodup_cons.1 hnd).1 (heq ▸ List.getElem_mem hk)
      have hbeq : (b == bs[k]) = false := beq_eq_false_iff_ne.2 hbne
      rw [hbeq, cond_false, ih (List.nodup_cons.1 hnd).2 k hk]

theorem map_indexOf_eq_range {β : Type} [BEq β] [LawfulBEq β] {l : List β}
    (hnd : l.Nodup) : l.map (fun x => l.indexOf x) = List.range l.length := by
  apply List.ext_getElem
  · simp
  intro i h1 h2
  rw [List.getElem_map, List.getElem_range]
  exact indexOf_getElem_of_nodup hnd i (by simpa using h1)

theorem rowLtB_total_of_ne {a b : List α} (hne : a ≠ b) :
    rowLtB a b = true ∨ rowLtB b a = true := by
  induction a generalizing b with
  | nil =>
    cases b with
    | nil => exact absurd rfl hne
    | cons y ys => left; rfl
  | cons x xs ih =>
    cases b with
    | nil => right; rfl
    | cons y ys =>
      rcases lt_trichotomy x y with h | h | h
      · left; simp [rowLtB, h]
      · subst h
        have hne' : xs ≠ ys := fun h => hne (by rw [h])
        rcases ih hne' with h' | h'
        · left; simp [rowLtB, h']
        · right; simp [rowLtB, h']
      · right; simp [rowLtB, h]

theorem mem_insertRow {x r : List α} {l : List (List α)} :
    x ∈ insertRow r l ↔ x = r ∨ x ∈ l := by
  induction l with
  | nil => simp [insertRow]
  | cons s rest ih =>
    rw [insertRow]
    by_cases h1 : rowLtB r s = true
    · rw [if_pos h1]
      simp [List.mem_cons, or_comm, or_left_comm, eq_comm]
    · rw [if_neg h1]
      by_cases h2 : r = s
      · subst h2
        rw [if_pos rfl]
        simp only [List.mem_cons]
        constructor
        · intro h; exact Or.inr h
        · rintro (rfl | h)
          · exact Or.inl rfl
          · exact h
      · rw [if_neg h2]
        simp only [List.mem_cons, ih]
        tauto

theorem insertRow_pairwise {r : List α} {l : List (List α)}
    (hl : l.Pairwise fun a b => rowLtB a b = true) :
    (insertRow r l).Pairwise fun a b => rowLtB a b = true := by
  induction l with
  | nil => simp [insertRow]
  | cons s rest ih =>
    rw [insertRow]
    by_cases h1 : rowLtB r s = true
    · rw [if_pos h1]
      apply List.pairwise_cons.2
      refine ⟨?_, hl⟩
      intro t ht
      rcases List.mem_cons.1 ht with rfl | ht
      · exact h1
      · exact rowLtB_trans h1 ((List.pairwise_cons.1 hl).1 t ht)
    · rw [if_neg h1]
      by_cases h2 : r = s
      · rw [if_pos h2]; exact hl
      · rw [if_neg h2]
        apply List.pairwise_cons.2
        constructor
        · intro t ht
          rcases mem_insertRow.1 ht with rfl | ht
          · rcases rowLtB_total_of_ne h2 with h | h
            · exact absurd h h1
            · exact h
          · exact (List.pairwise_cons.1 hl).1 t ht
        · exact ih (List.pairwise_cons.1 hl).2

theorem uniqueLexsorted_pairwise (l : List (List α)) :
    (uniqueLexsorted l).Pairwise fun a b => rowLtB a b = true := by
  induction l with
  | nil => simp [uniqueLexsorted]
  | cons r rest ih => exact insertRow_pairwise ih

theorem mem_uniqueLexsorted {x : List α} {l : List (List α)} :
    x ∈ uniqueLexsorted l ↔ x ∈ l := by
  induction l with
  | nil => simp [uniqueLexsorted]
  | cons r rest ih =>
    show x ∈ insertRow r (uniqueLexsorted rest) ↔ _
    rw [mem_insertRow, ih]
    simp [List.mem_cons, eq_comm]

theorem uniqueLexsorted_nodup (l : List (List α)) :
    (uniqueLexsorted l).Nodup :=
  (uniqueLexsorted_pairwise l).imp fun h => rowLtB_ne h

theorem insertRow_length_le (r : List α) (l : List (List α)) :
    (insertRow r l).length ≤ l.length + 1 := by
  induction l with
  | nil => simp [insertRow]
  | cons s rest ih =>
    rw [insertRow]
    by_cases h1 : rowLtB r s = true
    · rw [if_pos h1]; simp
    · rw [if_neg h1]
      by_cases h2 : r = s
      · rw [if_pos h2]; simp
      · rw [if_neg h2]
        simpa using Nat.succ_le_succ ih

theorem uniqueLexsorted_length_le (l : List (List α)) :
    (uniqueLexsorted l).length ≤ l.length := by
  induction l with
  | nil => simp [uniqueLexsorted]
  | cons r rest ih =>
    show (insertRow r (uniqueLexsorted rest)).length ≤ rest.length + 1
    exact le_trans (insertRow_length_le _ _) (Nat.succ_le_succ ih)

theorem mem_insertVal {x r : α} {l : List α} :
    x ∈ insertVal r l ↔ x = r ∨ x ∈ l := by
  induction l with
  | nil => simp [insertVal]
  | cons s rest ih =>
    rw [insertVal]
    by_cases h1 : r < s
    · rw [if_pos h1]
      simp [List.mem_cons, or_comm, or_left_comm, eq_comm]
    · rw [if_neg h1]
      by_cases h2 : r = s
      · subst h2
        rw [if_pos rfl]
        simp only [List.mem_cons]
        constructor
        · intro h; exact Or.inr h
        · rintro (rfl | h)
          · exact Or.inl rfl
          · exact h
      · rw [if_neg h2]
        simp only [List.mem_cons, ih]
        tauto

theorem insertVal_pairwise {r : α} {l : List α}
    (hl : l.Pairwise (· < ·)) : (insertVal r l).Pairwise (· < ·) := by
  induction l with
  | nil => simp [insertVal]
  | cons s rest ih =>
    rw [insertVal]
    by_cases h1 : r < s
    · rw [if_pos h1]
      apply List.pairwise_cons.2
      refine ⟨?_, hl⟩
      intro t ht
      rcases List.mem_cons.1 ht with rfl | ht
      · exact h1
      · exact lt_trans h1 ((List.pairwise_cons.1 hl).1 t ht)
    · rw [if_neg h1]
      by_cases h2 : r = s
      · rw [if_pos h2]; exact hl
      · rw [if_neg h2]
        apply List.pairwise_cons.2
        constructor
        · intro t ht
          rcases mem_insertVal.1 ht with rfl | ht
          · rcases lt_trichotomy t s with h | h | h
            · exact absurd h h1
            · exact absurd h h2
            · exact h
          · exact (List.pairwise_cons.1 hl).1 t ht
        · exact ih (List.pairwise_cons.1 hl).2

theorem uniqueSorted_pairwise (l : List α) :
    (uniqueSorted l).Pairwise (· < ·) := by
  induction l with
  | nil => simp [uniqueSorted]
  | cons r rest ih => exact insertVal_pairwise ih

theorem mem_uniqueSorted {x : α} {l : List α} :
    x ∈ uniqueSorted l ↔ x ∈ l := by
  induction l with
  | nil => simp [uniqueSorted]
  | cons r rest ih =>
    show x ∈ insertVal r (uniqueSorted rest) ↔ _
    rw [mem_insertVal, ih]
    simp [List.mem_cons, eq_comm]

theorem indexOf_lt_indexOf_of_sorted {L : List α} (hs : L.Pairwise (· < ·))
    {x y : α} (hx : x ∈ L) (hy : y ∈ L) (hxy : x < y) :
    L.indexOf x < L.indexOf y := by
  have hxl := List.indexOf_lt_length.2 hx
  have hyl := List.indexOf_lt_length.2 hy
  have hgx : L[L.indexOf x] = x := List.getElem_indexOf hxl
  have hgy : L[L.indexOf y] = y := List.getElem_indexOf hyl
  rcases Nat.lt_trichotomy (L.indexOf x) (L.indexOf y) with h | h | h
  · exact h
  · exfalso
    have hxy' : x = y := by
      have h1 : L[L.indexOf x] = L[L.indexOf y] := by
        simp only [h]
      rw [hgx, hgy] at h1
      exact h1
    subst hxy'
    exact lt_irrefl _ hxy
  · have := (List.pairwise_iff_getElem.1 hs) _ _ hyl hxl h
    rw [hgx, hgy] at this
    exact absurd (lt_trans hxy this) (lt_irrefl _)

theorem countP_add_countP_not {β : Type} (l : List β) (p : β → Bool) :
    l.countP p + l.countP (fun a => !(p a)) = l.length := by
  induction l with
  | nil => rfl
  | cons a l ih =>
    rw [List.countP_cons, List.countP_cons, List.length_cons]
    cases h : p a <;> simp [h] <;> omega

/-- What holds of the state `rankLoop` returns when its loop condition has
just failed: all catch-all conclusions about the final rank array. -/
theorem rankLoop_exit_sound (u : List (List α)) (nb : Nat)
    (ranks : List Int) (live : List (Nat × List α)) (rank : Int)
    (hrlen : ranks.length = u.length)
    (hlive : ∀ p ∈ live, ∃ hp : p.1 < u.length, u[p.1] = p.2)
    (hlividx : (live.map Prod.fst).Pairwise (· < ·))
    (hrank0 : (0 : Int) ≤ rank)
    (hranknb : rank ≤ (nb : Int))
    (hc : ∀ (i : Nat), i < u.length → (∀ p ∈ live, p.1 ≠ i) →
      0 ≤ ranks.getD i 0 ∧ ranks.getD i 0 < rank)
    (he : ∀ (i j : Nat) (hi : i < u.length) (hj : j < u.length),
      VecDom (u[i]) (u[j]) → (∀ p ∈ live, p.1 ≠ j) →
      (∀ p ∈ live, p.1 ≠ i) ∧ ranks.getD i 0 < ranks.getD j 0)
    (hexit : ¬(u.length - live.length < nb)) :
    (assignRank ranks (live.map Prod.fst) rank).length = u.length ∧
    ∃ rfinal : Int, 0 ≤ rfinal ∧ rfinal ≤ (nb : Int) ∧
      (∀ (i : Nat), i < u.length →
        0 ≤ (assignRank ranks (live.map Prod.fst) rank).getD i 0 ∧
        (assignRank ranks (live.map Prod.fst) rank).getD i 0 ≤ rfinal) ∧
      nb ≤ ((List.range u.length).countP fun i =>
        decide ((assignRank ranks (live.map Prod.fst) rank).getD i 0 < rfinal)) ∧
      (∀ (i j : Nat) (hi : i < u.length) (hj : j < u.length),
        VecDom (u[i]) (u[j]) →
        (assignRank ranks (live.map Prod.fst) rank).getD j 0 < rfinal →
        (assignRank ranks (live.map Prod.fst) rank).getD i 0 <
          (assignRank ranks (live.map Prod.fst) rank).getD j 0) := by
  have hlidx_nodup : (live.map Prod.fst).Nodup :=
    hlividx.imp fun h => ne_of_lt h
  have hlidx_lt : ∀ i ∈ live.map Prod.fst, i < u.length := by
    intro i hi
    rcases List.mem_map.1 hi with ⟨p, hp, hpi⟩
    rcases hlive p hp with ⟨hplt, -⟩
    exact hpi ▸ hplt
  have hnotmem_char : ∀ i : Nat, i ∉ live.map Prod.fst →
      ∀ p ∈ live, p.1 ≠ i := by
    intro i hmem p hp hpi
    exact hmem (List.mem_map.2 ⟨p, hp, hpi⟩)
  have hmem_of : ∀ i : Nat, (∀ p ∈ live, p.1 ≠ i) →
      i ∉ live.map Prod.fst := by
    intro i h him
    rcases List.mem_map.1 him with ⟨p, hp, hpi⟩
    exact h p hp hpi
  have hout_mem : ∀ i : Nat, i ∈ live.map Prod.fst →
      (assignRank ranks (live.map Prod.fst) rank).getD i 0 = rank := by
    intro i hi
    exact assignRank_getD_of_mem hi _ (hrlen ▸ hlidx_lt i hi) _ _
  have hout_notmem : ∀ i : Nat, i ∉ live.map Prod.fst →
      (assignRank ranks (live.map Prod.fst) rank).getD i 0 = ranks.getD i 0 :=
    fun i hi => assignRank_getD_of_not_mem hi _ _ _
  refine ⟨by rw [assignRank_length]; exact hrlen, rank, hrank0, hranknb, ?_, ?_, ?_⟩
  · intro i hi
    by_cases hmem : i ∈ live.map Prod.fst
    · rw [hout_mem i hmem]
      exact ⟨hrank0, le_refl _⟩
    · rw [hout_notmem i hmem]
      have := hc i hi (hnotmem_char i hmem)
      exact ⟨this.1, le_of_lt this.2⟩
  · -- at least nb positions received a rank strictly below the final one
    have hsubset : ∀ i ∈ (List.range u.length).filter fun i =>
        !(decide ((assignRank ranks (live.map Prod.fst) rank).getD i 0 < rank)),
        i ∈ live.map Prod.fst := by
      intro i hi
      rcases List.mem_filter.1 hi with ⟨hir, hnp⟩
      rw [List.mem_range] at hir
      rw [Bool.not_eq_true', decide_eq_false_iff_not] at hnp
      by_contra hmem
      have := (hc i hir (hnotmem_char i hmem)).2
      rw [← hout_notmem i hmem] at this
      exact hnp this
    have hflen : ((List.range u.length).filter fun i =>
        !(decide ((assignRank ranks (live.map Prod.fst) rank).getD i 0 < rank))).length ≤
        live.length := by
      calc ((List.range u.length).filter _).length
          = ((List.range u.length).filter _).toFinset.card :=
            (List.toFinset_card_of_nodup ((List.nodup_range _).filter _)).symm
        _ ≤ (live.map Prod.fst).toFinset.card := by
            apply Finset.card_le_card
            intro x hx
            rw [List.mem_toFinset] at hx ⊢
            exact hsubset x hx
        _ ≤ (live.map Prod.fst).length := List.toFinset_card_le _
        _ = live.length := List.length_map _ _
    have hsum := countP_add_countP_not (List.range u.length)
      (fun i => decide ((assignRank ranks (live.map Prod.fst) rank).getD i 0 < rank))
    rw [List.length_range] at hsum
    have hlivelen : live.length ≤ u.length := by
      have := nodup_lt_length_le hlidx_nodup u.length hlidx_lt
      rwa [List.length_map] at this
    rw [List.countP_eq_length_filter
      (fun i => !(decide ((assignRank ranks (live.map Prod.fst) rank).getD i 0 < rank)))] at hsum
    omega
  · intro i j hi hj hdom hlt
    have hjmem : j ∉ live.map Prod.fst := by
      intro hjm
      rw [hout_mem j hjm] at hlt
      exact lt_irrefl _ hlt
    have hjchar : ∀ p ∈ live, p.1 ≠ j := hnotmem_char j hjmem
    rcases he i j hi hj hdom hjchar with ⟨hichar, hlt'⟩
    have himem : i ∉ live.map Prod.fst := hmem_of i hichar
    rw [hout_notmem i himem, hout_notmem j hjmem]
    exact hlt'

/-- The first row of a strictly lexicographically sorted list is dominated
by no row of the list. -/
theorem head_not_dominated {v : List α} {vs : List (List α)}
    (hsort : (v :: vs).Pairwise fun a b => rowLtB a b = true) :
    ((v :: vs).any fun z => decide (VecDom z v)) = false := by
  rw [Bool.eq_false_iff]
  intro hany
  rcases List.any_eq_true.1 hany with ⟨z, hz, hdz⟩
  rw [decide_eq_true_eq] at hdz
  rcases List.mem_cons.1 hz with rfl | hz
  · exact vecDom_irrefl _ hdz
  · have := vecDom_rowLtB hdz
    rw [rowLtB_asymm ((List.pairwise_cons.1 hsort).1 z hz)] at this
    exact Bool.false_ne_true this

/-- With an empty live set and a still-unsatisfied budget, the layering
loop never returns (the Python `while` loop runs forever). -/
theorem rankLoop_nil (m nU nb : Nat)
    (hcond : nU - ([] : List (Nat × List α)).length < nb) :
    ∀ (fuel : Nat) (ranks : List Int) (rank : Int),
      rankLoop (α := α) m nU nb fuel ranks [] rank = none := by
  intro fuel
  induction fuel with
  | zero =>
    intro ranks rank
    rw [rankLoop, if_pos hcond]
  | succ fuel ih =>
    intro ranks rank
    rw [rankLoop, if_pos hcond]
    simp only [selectMask, List.map_nil, assignRank, List.foldl_nil]
    exact ih _ _

/-- Dispatcher correctness: on deduplicated lexicographically sorted
rectangular input of any width `m ≥ 1`, `_is_pareto_front` computes exactly
the non-dominated mask. -/
theorem isParetoFront_correct (m : Nat) (l : List (List α)) (hm : 1 ≤ m)
    (hrect : ∀ r ∈ l, r.length = m)
    (hsort : l.Pairwise fun a b => rowLtB a b = true) :
    isParetoFront m l = paretoMaskSpec l := by
  by_cases h1 : m = 1
  · subst h1
    exact isParetoFront_one_correct l hrect hsort
  · by_cases h2 : m = 2
    · subst h2
      rw [isParetoFront, if_neg (by decide), if_pos rfl]
      exact isParetoFront_two_correct l hrect hsort
    · rw [isParetoFront, if_neg h1, if_neg h2]
      exact isParetoFrontNd_correct m l hrect hsort

/-- Away from the 1-D empty-input IndexError, the checked entry point
returns exactly the error-free core's mask. -/
theorem isParetoFrontChecked_ok (m : Nat) (l : List (List α))
    (hne : m = 1 → l ≠ []) :
    isParetoFrontChecked m l = Except.ok (isParetoFront m l) := by
  by_cases hm1 : m = 1
  · subst hm1
    cases l with
    | nil => exact absurd rfl (hne rfl)
    | cons r0 rest => simp [isParetoFrontChecked, isParetoFront]
  · simp only [isParetoFrontChecked, isParetoFront, if_neg hm1]
    by_cases hm2 : m = 2
    · rw [if_pos hm2, if_pos hm2]
    · rw [if_neg hm2, if_neg hm2]

/-- Soundness of the layering loop of `_calculate_nondomination_rank` on a
sorted deduplicated unique array `u`: any returning run yields ranks bounded
by a final catch-all value `rfinal ≤ n_below`, resolves at least `n_below`
unique rows strictly below `rfinal`, and resolved ranks respect dominance. -/
theorem rankLoop_sound (m : Nat) (u : List (List α)) (hm : 1 ≤ m)
    (hUrect : ∀ r ∈ u, r.length = m)
    (hUsort : u.Pairwise fun a b => rowLtB a b = true) (nb : Nat) :
    ∀ (fuel : Nat) (ranks : List Int) (live : List (Nat × List α)) (rank : Int)
      (out : List Int),
      ranks.length = u.length →
      (∀ p ∈ live, ∃ hp : p.1 < u.length, u[p.1] = p.2) →
      ((live.map Prod.fst).Pairwise (· < ·)) →
      ((0 : Int) ≤ rank) →
      (rank ≤ ((u.length - live.length : Nat) : Int)) →
      (rank ≤ (nb : Int)) →
      (∀ (i : Nat), i < u.length → (∀ p ∈ live, p.1 ≠ i) →
        0 ≤ ranks.getD i 0 ∧ ranks.getD i 0 < rank) →
      (∀ (i j : Nat) (hi : i < u.length) (hj : j < u.length),
        VecDom (u[i]) (u[j]) → (∀ p ∈ live, p.1 ≠ j) →
        (∀ p ∈ live, p.1 ≠ i) ∧ ranks.getD i 0 < ranks.getD j 0) →
      rankLoop m u.length nb fuel ranks live rank = some out →
      out.length = u.length ∧
      ∃ rfinal : Int, 0 ≤ rfinal ∧ rfinal ≤ (nb : Int) ∧
        (∀ (i : Nat), i < u.length →
          0 ≤ out.getD i 0 ∧ out.getD i 0 ≤ rfinal) ∧
        nb ≤ ((List.range u.length).countP fun i =>
          decide (out.getD i 0 < rfinal)) ∧
        (∀ (i j : Nat) (hi : i < u.length) (hj : j < u.length),
          VecDom (u[i]) (u[j]) → out.getD j 0 < rfinal →
          out.getD i 0 < out.getD j 0) := by
  intro fuel
  induction fuel with
  | zero =>
    intro ranks live rank out hrlen hlive hlividx hrank0 hrankres hranknb hc he h
    rw [rankLoop] at h
    by_cases hcond : u.length - live.length < nb
    · rw [if_pos hcond] at h
      exact absurd h (by simp)
    · rw [if_neg hcond] at h
      obtain rfl := (Option.some.inj h)
      exact rankLoop_exit_sound u nb ranks live rank hrlen hlive hlividx
        hrank0 hranknb hc he hcond
  | succ fuel ih =>
    intro ranks live rank out hrlen hlive hlividx hrank0 hrankres hranknb hc he h
    rw [rankLoop] at h
    by_cases hcond : u.length - live.length < nb
    case neg =>
      rw [if_neg hcond] at h
      obtain rfl := (Option.some.inj h)
      exact rankLoop_exit_sound u nb ranks live rank hrlen hlive hlividx
        hrank0 hranknb hc he hcond
    rw [if_pos hcond] at h
    cases live with
    | nil =>
      simp only [selectMask, List.map_nil, assignRank, List.foldl_nil] at h
      rw [rankLoop_nil m u.length nb hcond] at h
      exact absurd h (by simp)
    | cons p0 rest =>
      -- name the live list again
      generalize hL : (p0 :: rest : List (Nat × List α)) = live at *
      -- the live rows are sorted, deduplicated and rectangular
      have hlivepair : live.Pairwise fun p q => p.1 < q.1 :=
        List.pairwise_map.1 hlividx
      have hrowsort : (live.map Prod.snd).Pairwise
          fun a b => rowLtB a b = true := by
        rw [List.pairwise_map]
        apply hlivepair.imp_of_mem
        intro p q hp hq hpq
        rcases hlive p hp with ⟨hplt, hpu⟩
        rcases hlive q hq with ⟨hqlt, hqu⟩
        rw [← hpu, ← hqu]
        exact (List.pairwise_iff_getElem.1 hUsort) _ _ hplt hqlt hpq
      have hrowrect : ∀ r ∈ live.map Prod.snd, r.length = m := by
        intro r hr
        rcases List.mem_map.1 hr with ⟨p, hp, hpr⟩
        rcases hlive p hp with ⟨hplt, hpu⟩
        rw [← hpr, ← hpu]
        exact hUrect _ (List.getElem_mem hplt)
      have hmask : isParetoFront m (live.map Prod.snd) =
          live.map fun p =>
            !((live.map Prod.snd).any fun z => decide (VecDom z p.2)) := by
        rw [isParetoFront_correct m _ hm hrowrect hrowsort, paretoMaskSpec,
          List.map_map]
        rfl
      have hfront : selectMask live (isParetoFront m (live.map Prod.snd)) =
          live.filter fun p =>
            !((live.map Prod.snd).any fun z => decide (VecDom z p.2)) := by
        rw [hmask, selectMask_map_eq_filter]
      have hlive2 : selectMask live
            ((isParetoFront m (live.map Prod.snd)).map (!·)) =
          live.filter fun p =>
            ((live.map Prod.snd).any fun z => decide (VecDom z p.2)) := by
        rw [hmask, List.map_map]
        have : ((fun x => !x) ∘ fun p : Nat × List α =>
            !((live.map Prod.snd).any fun z => decide (VecDom z p.2))) =
            fun p : Nat × List α =>
              ((live.map Prod.snd).any fun z => decide (VecDom z p.2)) := by
          funext p
          simp
        rw [this, selectMask_map_eq_filter]
      rw [hfront, hlive2] at h
      -- invariants for the recursive call
      have hlive'sub : ∀ p ∈ live.filter fun p =>
          ((live.map Prod.snd).any fun z => decide (VecDom z p.2)), p ∈ live :=
        fun p hp => List.mem_of_mem_filter hp
      have hfrontsub : ∀ p ∈ live.filter fun p =>
          !((live.map Prod.snd).any fun z => decide (VecDom z p.2)), p ∈ live :=
        fun p hp => List.mem_of_mem_filter hp
      have hlive' : ∀ p ∈ live.filter fun p =>
          ((live.map Prod.snd).any fun z => decide (VecDom z p.2)),
          ∃ hp : p.1 < u.length, u[p.1] = p.2 :=
        fun p hp => hlive p (hlive'sub p hp)
      have hlividx' : ((live.filter fun p =>
          ((live.map Prod.snd).any fun z => decide (VecDom z p.2))).map
            Prod.fst).Pairwise (· < ·) :=
        List.Pairwise.sublist ((List.filter_sublist _).map Prod.fst) hlividx
      have hrlen' : (assignRank ranks ((live.filter fun p =>
          !((live.map Prod.snd).any fun z => decide (VecDom z p.2))).map
            Prod.fst) rank).length = u.length := by
        rw [assignRank_length]; exact hrlen
      -- index membership tools
      have hlivelen : live.length ≤ u.length := by
        have hnodup : (live.map Prod.fst).Nodup :=
          hlividx.imp fun h => ne_of_lt h
        have hlt : ∀ i ∈ live.map Prod.fst, i < u.length := by
          intro i hi
          rcases List.mem_map.1 hi with ⟨p, hp, hpi⟩
          rcases hlive p hp with ⟨hplt, -⟩
          exact hpi ▸ hplt
        have := nodup_lt_length_le hnodup u.length hlt
        rwa [List.length_map] at this
      -- the head of the live list is on the front
      have hheadany : ((live.map Prod.snd).any fun z =>
          decide (VecDom z p0.2)) = false := by
        rw [← hL]
        rw [← hL] at hrowsort
        exact head_not_dominated hrowsort
      have hlive'len : (live.filter fun p =>
          ((live.map Prod.snd).any fun z => decide (VecDom z p.2))).length <
          live.length := by
        rw [← hL]
        rw [List.filter_cons]
        rw [← hL] at hheadany
        rw [hheadany]
        simp only [if_neg (Bool.false_ne_true)]
        exact Nat.lt_succ_of_le (List.length_filter_le _ _)
      have hfrontidx_sub : ∀ i : Nat, i ∈ (live.filter fun p =>
          !((live.map Prod.snd).any fun z => decide (VecDom z p.2))).map
            Prod.fst → ∃ p ∈ live, p.1 = i ∧
            ((live.map Prod.snd).any fun z => decide (VecDom z p.2)) = false := by
        intro i hi
        rcases List.mem_map.1 hi with ⟨p, hp, hpi⟩
        rcases List.mem_filter.1 hp with ⟨hpl, hppred⟩
        rw [Bool.not_eq_true'] at hppred
        exact ⟨p, hpl, hpi, hppred⟩
      have hnotlive_of : ∀ i : Nat,
          (∀ p ∈ live.filter fun p =>
            ((live.map Prod.snd).any fun z => decide (VecDom z p.2)), p.1 ≠ i) →
          i ∉ (live.filter fun p =>
            !((live.map Prod.snd).any fun z => decide (VecDom z p.2))).map
              Prod.fst →
          ∀ p ∈ live, p.1 ≠ i := by
        intro i h1 h2 p hp hpi
        cases hpred : ((live.map Prod.snd).any fun z =>
            decide (VecDom z p.2)) with
        | true => exact h1 p (List.mem_filter.2 ⟨hp, hpred⟩) hpi
        | false =>
          exact h2 (List.mem_map.2 ⟨p, List.mem_filter.2
            ⟨hp, by rw [hpred]; rfl⟩, hpi⟩)
      -- the new partial assignment
      have hc' : ∀ (i : Nat), i < u.length →
          (∀ p ∈ live.filter fun p =>
            ((live.map Prod.snd).any fun z => decide (VecDom z p.2)), p.1 ≠ i) →
          0 ≤ (assignRank ranks ((live.filter fun p =>
            !((live.map Prod.snd).any fun z => decide (VecDom z p.2))).map
              Prod.fst) rank).getD i 0 ∧
          (assignRank ranks ((live.filter fun p =>
            !((live.map Prod.snd).any fun z => decide (VecDom z p.2))).map
              Prod.fst) rank).getD i 0 < rank + 1 := by
        intro i hiu hinot
        by_cases himem : i ∈ (live.filter fun p =>
            !((live.map Prod.snd).any fun z => decide (VecDom z p.2))).map
              Prod.fst
        · rw [assignRank_getD_of_mem himem _ (hrlen ▸ hiu)]
          constructor
          · exact hrank0
          · omega
        · rw [assignRank_getD_of_not_mem himem]
          have := hc i hiu (hnotlive_of i hinot himem)
          exact ⟨this.1, by omega⟩
      have he' : ∀ (i j : Nat) (hi : i < u.length) (hj : j < u.length),
          VecDom (u[i]) (u[j]) →
          (∀ p ∈ live.filter fun p =>
            ((live.map Prod.snd).any fun z => decide (VecDom z p.2)), p.1 ≠ j) →
          (∀ p ∈ live.filter fun p =>
            ((live.map Prod.snd).any fun z => decide (VecDom z p.2)), p.1 ≠ i) ∧
          (assignRank ranks ((live.filter fun p =>
            !((live.map Prod.snd).any fun z => decide (VecDom z p.2))).map
              Prod.fst) rank).getD i 0 <
          (assignRank ranks ((live.filter fun p =>
            !((live.map Prod.snd).any fun z => decide (VecDom z p.2))).map
              Prod.fst) rank).getD j 0 := by
        intro i j hiu hju hdom hjnot
        by_cases hjlive : ∀ p ∈ live, p.1 ≠ j
        · rcases he i j hiu hju hdom hjlive with ⟨hilive, hij⟩
          have hinfr : i ∉ (live.filter fun p =>
              !((live.map Prod.snd).any fun z => decide (VecDom z p.2))).map
                Prod.fst := by
            intro hmem
            rcases hfrontidx_sub i hmem with ⟨p, hp, hpi, -⟩
            exact hilive p hp hpi
          have hjnfr : j ∉ (live.filter fun p =>
              !((live.map Prod.snd).any fun z => decide (VecDom z p.2))).map
                Prod.fst := by
            intro hmem
            rcases hfrontidx_sub j hmem with ⟨p, hp, hpi, -⟩
            exact hjlive p hp hpi
          rw [assignRank_getD_of_not_mem hinfr, assignRank_getD_of_not_mem hjnfr]
          refine ⟨?_, hij⟩
          intro p hp hpi
          exact hilive p (List.mem_of_mem_filter hp) hpi
        · push_neg at hjlive
          rcases hjlive with ⟨pj, hpj, hpji⟩
          rcases hlive pj hpj with ⟨hpjlt, hpju⟩
          have hpj2 : pj.2 = u[j] := by
            rw [← hpju]
            simp only [hpji]
          have hpjpred : ((live.map Prod.snd).any fun z =>
              decide (VecDom z pj.2)) = false := by
            cases hpred : ((live.map Prod.snd).any fun z =>
                decide (VecDom z pj.2)) with
            | false => rfl
            | true =>
              exact absurd hpji (hjnot pj (List.mem_filter.2 ⟨hpj, hpred⟩))
          have hilive : ∀ p ∈ live, p.1 ≠ i := by
            intro p hp hpi
            rcases hlive p hp with ⟨hplt, hpu⟩
            have hzmem : p.2 ∈ live.map Prod.snd := List.mem_map.2 ⟨p, hp, rfl⟩
            have hzdom : VecDom p.2 pj.2 := by
              rw [hpj2, ← hpu]
              have : u[p.1] = u[i] := by simp only [hpi]
              rw [this]
              exact hdom
            have : ((live.map Prod.snd).any fun z =>
                decide (VecDom z pj.2)) = true :=
              List.any_eq_true.2 ⟨p.2, hzmem, decide_eq_true hzdom⟩
            rw [hpjpred] at this
            exact Bool.false_ne_true this
          have hinfr : i ∉ (live.filter fun p =>
              !((live.map Prod.snd).any fun z => decide (VecDom z p.2))).map
                Prod.fst := by
            intro hmem
            rcases hfrontidx_sub i hmem with ⟨p, hp, hpi, -⟩
            exact hilive p hp hpi
          have hjfr : j ∈ (live.filter fun p =>
              !((live.map Prod.snd).any fun z => decide (VecDom z p.2))).map
                Prod.fst := by
            apply List.mem_map.2
            refine ⟨pj, List.mem_filter.2 ⟨hpj, by rw [hpjpred]; rfl⟩, hpji⟩
          rw [assignRank_getD_of_not_mem hinfr,
            assignRank_getD_of_mem hjfr _ (hrlen ▸ hju)]
          have := (hc i hiu hilive).2
          refine ⟨?_, by omega⟩
          intro p hp hpi
          exact hilive p (List.mem_of_mem_filter hp) hpi
      -- arithmetic invariants for the recursive call
      have hrank0' : (0 : Int) ≤ rank + 1 := by omega
      have hrankres' : rank + 1 ≤ ((u.length - (live.filter fun p =>
          ((live.map Prod.snd).any fun z => decide (VecDom z p.2))).length :
            Nat) : Int) := by
        have h1 := hlive'len
        have h2 := hlivelen
        omega
      have hranknb' : rank + 1 ≤ (nb : Int) := by
        have h2 := hlivelen
        omega
      exact ih _ _ _ out hrlen' hlive' hlividx' hrank0' hrankres' hranknb'
        hc' he' h

end ArrayLevel

/-! ## The trials of concrete scenario A (two-objective MINIMIZE/MINIMIZE) -/

/-- Scenario A trial with values `(1, 4)`. -/
def trialA0 : Trial := ⟨0, .complete, [some 1, some 4], none⟩

/-- Scenario A trial with values `(2, 3)`. -/
def trialA1 : Trial := ⟨1, .complete, [some 2, some 3], none⟩

/-- Scenario A trial with values `(3, 2)`. -/
def trialA2 : Trial := ⟨2, .complete, [some 3, some 2], none⟩

/-- Scenario A trial with values `(4, 1)`. -/
def trialA3 : Trial := ⟨3, .complete, [some 4, some 1], none⟩

/-- Scenario A trial with values `(2, 2)`. -/
def trialA4 : Trial := ⟨4, .complete, [some 2, some 2], none⟩

/-- The five scenario A trials, in arrival order. -/
def scenarioATrials : List Trial := [trialA0, trialA1, trialA2, trialA3, trialA4]

/-! ## Theorems for the claims -/

/-- C1: on the constrained scenario (feasible `(1,1)` and `(2,2)` with
penalties `0`, infeasible `(0,0)` with penalty `3`), `_fast_non_dominated_sort`
does not return the ranks `[0, 1, 2]` the spec describes: the branch guard
`if is_infeasible > 0:` evaluates the truth value of the three-element
boolean mask and the call raises NumPy's ambiguous-truth-value error. -/
theorem C1_constrained_scenario_raises :
    fastNonDominatedSort ([[1, 1], [2, 2], [0, 0]] : List (List ℤ))
      (some [some 0, some 0, some 3]) none = .raise ambiguousTruthMsg := by
  decide

/-- C2: already on the two-record all-feasible input `[[1], [2]]` with
penalties `[0, 0]`, the penalty-supplied path raises the ambiguous-truth-value
error instead of returning the ranks `[0, 1]` that both the `penalty=None`
path and `_calculate_nondomination_rank` produce. -/
theorem C2_all_feasible_scenario_raises :
    fastNonDominatedSort ([[1], [2]] : List (List ℤ))
        (some [some 0, some 0]) none = .raise ambiguousTruthMsg ∧
      fastNonDominatedSort ([[1], [2]] : List (List ℤ)) none none = .ok [0, 1] ∧
      calculateNondominationRank ([[1], [2]] : List (List ℤ)) none =
        some [0, 1] := by
  refine ⟨by decide, by decide, by decide⟩

/-- C3 (counterexample): the claim says the penalty-supplied path always
*raises* before returning; on duplicate rows `[[0,0],[0,0]]` with penalties
`[0, 0]` the call instead diverges (the layering loop of phase 1 never
terminates), so no exception is raised. -/
theorem C3_counterexample_diverges :
    fastNonDominatedSort ([[0, 0], [0, 0]] : List (List ℤ))
        (some [some 0, some 0]) none = .diverge ∧
      (fastNonDominatedSort ([[0, 0], [0, 0]] : List (List ℤ))
        (some [some 0, some 0]) none).isRaise = false := by
  refine ⟨by decide, by decide⟩

/-- C4 (counterexample): `_normalize_value(None, MAXIMIZE)` substitutes
`float("inf")` for the absent value *before* negating, so the MAXIMIZE
direction returns `-inf`, not the claimed `+inf`. -/
theorem C4_counterexample_maximize_neg_inf :
    normalizeValue none .maximize = .negInf ∧
      PFloat.negInf ≠ PFloat.posInf := by
  refine ⟨rfl, by decide⟩

/-- C4 (amended): an absent objective value is normalized to `+inf` under
MINIMIZE and to `-inf` under MAXIMIZE. -/
theorem C4_normalize_none :
    normalizeValue none .minimize = .posInf ∧
      normalizeValue none .maximize = .negInf := by
  refine ⟨rfl, rfl⟩

/-- C5 (counterexample): the Pareto front of scenario A is not the claimed
record set `{(1,4), (2,3), (2,2), (4,1)}`: the record with values `(2,3)` is
itself dominated by `(2,2)` and is not returned. -/
theorem C5_counterexample_front :
    getParetoFrontTrials2d scenarioATrials [.minimize, .minimize] false ≠
        .ok [trialA0, trialA1, trialA3, trialA4] ∧
      trialA1 ∉ [trialA0, trialA3, trialA4] := by
  refine ⟨by decide, by decide⟩

/-- C5 (amended): on scenario A the two-objective front extraction returns
exactly the records with values `(1,4)`, `(4,1)` and `(2,2)` in arrival
order; `(2,3)` and `(3,2)` are both excluded, each dominated by `(2,2)`. -/
theorem C5_front_scenario_a :
    getParetoFrontTrials2d scenarioATrials [.minimize, .minimize] false =
      .ok [trialA0, trialA3, trialA4] := by
  decide

/-- C6 (counterexample): on the single-objective input `[5, 3, 3, 7]` the
rank calculator returns the dense ranks `[1, 0, 0, 2]` (`np.unique` inverse
indices), not the claimed `[2, 0, 0, 3]`. -/
theorem C6_counterexample_dense_rank :
    calculateNondominationRank ([[5], [3], [3], [7]] : List (List ℤ)) none =
        some [1, 0, 0, 2] ∧
      ([1, 0, 0, 2] : List ℤ) ≠ [2, 0, 0, 3] := by
  refine ⟨by decide, by decide⟩

/-- C6 (amended): on the single-objective MINIMIZE input `[5, 3, 3, 7]` with
no `n_below`, the rank calculator returns the dense ranks `[1, 0, 0, 2]`:
each value's index among the sorted distinct values `[3, 5, 7]`. -/
theorem C6_single_objective_ranks :
    calculateNondominationRank ([[5], [3], [3], [7]] : List (List ℤ)) none =
      some [1, 0, 0, 2] := by
  decide

/-- C7 (counterexample): with `n_below = 1` on `[[0,0], [1,1], [2,2]]` the
returned ranks are `[0, 1, 1]`: `(1,1)` dominates `(2,2)` but both fall into
the catch-all rank `1`, so rank monotonicity fails once `n_below` truncates
the computation. -/
theorem C7_counterexample_n_below :
    calculateNondominationRank ([[0, 0], [1, 1], [2, 2]] : List (List ℤ))
        (some 1) = some [0, 1, 1] ∧
      VecDom ([1, 1] : List ℤ) [2, 2] ∧ ¬((1 : ℤ) < 1) := by
  refine ⟨by decide, by decide, by decide⟩

/-- C8 (counterexample): the single-objective branch ignores `n_below`:
with `n_below = 1` on `[[0], [1], [2]]` it returns the full dense ranks
`[0, 1, 2]`, where the two distinct ranks `{0, 1}` lie strictly below the
final rank `2` even though the budget allows at most one. -/
theorem C8_counterexample_single_objective :
    calculateNondominationRank ([[0], [1], [2]] : List (List ℤ)) (some 1) =
        some [0, 1, 2] ∧
      ¬((([0, 1, 2] : List ℤ).filter (fun r => decide (r < 2))).dedup.length ≤ 1) := by
  refine ⟨by decide, by decide⟩

/-- C3 (amended): whenever a penalty array of the same length as
`loss_values` with at least two records is supplied,
`_fast_non_dominated_sort` never returns a rank array: it either raises
(the guard `if is_infeasible > 0` evaluates the truth value of a
multi-element boolean array) or diverges beforehand in the feasible-phase
layering loop. -/
theorem C3_penalty_path_never_returns {α : Type} [LinearOrder α] [Inhabited α]
    [Zero α] (loss : List (List α)) (pen : List (Option α)) (nBelow : Option Int)
    (hlen : pen.length = loss.length) (h2 : 2 ≤ loss.length) :
    fastNonDominatedSort loss (some pen) nBelow = .raise ambiguousTruthMsg ∨
      fastNonDominatedSort loss (some pen) nBelow = .diverge := by
  rcases pen with _ | ⟨p0, _ | ⟨p1, prest⟩⟩
  · simp only [List.length_nil] at hlen; omega
  · simp only [List.length_cons, List.length_nil] at hlen; omega
  · have hne : ¬((p0 :: p1 :: prest).length ≠ loss.length) := by
      rw [hlen]; exact fun h => h rfl
    simp only [fastNonDominatedSort, if_neg hne]
    cases hcalc : calculateNondominationRank
        (selectMask loss ((p0 :: p1 :: prest).map feasibleMaskEntry))
        (some (pyOrLen nBelow loss.length)) with
    | none => right; rfl
    | some feasibleRanks => left; rfl

/-- C3 (witness): the theorem applied to the concrete two-record all-feasible
call (which in fact raises). -/
theorem C3_penalty_path_never_returns_witness :
    fastNonDominatedSort ([[1], [2]] : List (List ℤ))
        (some [some 0, some 0]) none = .raise ambiguousTruthMsg ∨
      fastNonDominatedSort ([[1], [2]] : List (List ℤ))
        (some [some 0, some 0]) none = .diverge :=
  C3_penalty_path_never_returns [[1], [2]] [some 0, some 0] none (by decide)
    (by decide)

/-- C7 (amended): for every rectangular `loss_values` input on which
`_calculate_nondomination_rank` with `n_below = None` returns, the ranks are
dominance-monotonic: if row `i` dominates row `j` (elementwise `≤` on the
already-normalized values and distinct), then `i`'s rank is strictly
smaller than `j`'s. -/
theorem C7_rank_dominance_monotonic {α : Type} [LinearOrder α] [Inhabited α]
    (m : Nat) (loss : List (List α)) (ranks : List Int)
    (hrect : ∀ r ∈ loss, r.length = m)
    (hcalc : calculateNondominationRank loss none = some ranks)
    (i j : Nat) (hi : i < loss.length) (hj : j < loss.length)
    (hdom : VecDom (loss[i]) (loss[j])) :
    ranks.getD i 0 < ranks.getD j 0 := by
  rcases Nat.eq_zero_or_pos m with hm0 | hmpos
  · subst hm0
    have h1 : loss[i] = [] :=
      List.eq_nil_of_length_eq_zero (hrect _ (List.getElem_mem hi))
    have h2 : loss[j] = [] :=
      List.eq_nil_of_length_eq_zero (hrect _ (List.getElem_mem hj))
    rw [h1, h2] at hdom
    exact absurd rfl hdom.1
  have hne : loss ≠ [] := by
    intro hnil
    rw [hnil] at hi
    simp at hi
  have hnum : numObjectives loss = m := by
    rcases List.exists_cons_of_ne_nil hne with ⟨r0, rest, rfl⟩
    exact hrect r0 (List.mem_cons_self _ _)
  simp only [calculateNondominationRank] at hcalc
  rw [if_neg (by decide : ¬(nBelowNonpos none = true))] at hcalc
  by_cases hm1 : numObjectives loss = 1
  · rw [if_pos hm1] at hcalc
    obtain rfl := (Option.some.inj hcalc).symm
    have hm1' : m = 1 := hnum ▸ hm1
    subst hm1'
    rcases List.length_eq_one.1 (hrect _ (List.getElem_mem hi)) with ⟨x, hx⟩
    rcases List.length_eq_one.1 (hrect _ (List.getElem_mem hj)) with ⟨y, hy⟩
    have hxy : x < y := by
      rw [hx, hy] at hdom
      exact vecDom_singleton.1 hdom
    have hxs_i : i < (loss.map fun r => r.getD 0 default).length := by
      simpa using hi
    have hxs_j : j < (loss.map fun r => r.getD 0 default).length := by
      simpa using hj
    rw [denseRank, getD_map_of_lt _ _ _ hxs_i, getD_map_of_lt _ _ _ hxs_j]
    rw [List.getElem_map, List.getElem_map]
    rw [show (loss[i]).getD 0 default = x by rw [hx]; rfl]
    rw [show (loss[j]).getD 0 default = y by rw [hy]; rfl]
    have hxmem : x ∈ uniqueSorted (loss.map fun r => r.getD 0 default) := by
      rw [mem_uniqueSorted]
      apply List.mem_map.2
      exact ⟨loss[i], List.getElem_mem hi, by rw [hx]; rfl⟩
    have hymem : y ∈ uniqueSorted (loss.map fun r => r.getD 0 default) := by
      rw [mem_uniqueSorted]
      apply List.mem_map.2
      exact ⟨loss[j], List.getElem_mem hj, by rw [hy]; rfl⟩
    exact_mod_cast indexOf_lt_indexOf_of_sorted
      (uniqueSorted_pairwise (loss.map fun r => r.getD 0 default))
      hxmem hymem hxy
  · rw [if_neg hm1] at hcalc
    cases hloop : rankLoop (numObjectives loss) (uniqueLexsorted loss).length
        ((min (pyOrLen none loss.length) (loss.length : Int)).toNat)
        ((uniqueLexsorted loss).length + 1)
        (List.replicate (uniqueLexsorted loss).length 0)
        (uniqueLexsorted loss).enum 0 with
    | none =>
      rw [hloop] at hcalc
      exact absurd hcalc (by simp)
    | some ranksU =>
      rw [hloop] at hcalc
      obtain rfl := (Option.some.inj hcalc).symm
      have hnb : (min (pyOrLen none loss.length) (loss.length : Int)).toNat =
          loss.length := by
        simp [pyOrLen]
      have hUrect : ∀ r ∈ uniqueLexsorted loss, r.length = numObjectives loss := by
        intro r hr
        rw [hnum]
        exact hrect r (mem_uniqueLexsorted.1 hr)
      have hsound := rankLoop_sound (numObjectives loss) (uniqueLexsorted loss)
        (by omega : 1 ≤ numObjectives loss) hUrect
        (uniqueLexsorted_pairwise loss)
        ((min (pyOrLen none loss.length) (loss.length : Int)).toNat)
        ((uniqueLexsorted loss).length + 1)
        (List.replicate (uniqueLexsorted loss).length 0)
        (uniqueLexsorted loss).enum 0 ranksU
        (by simp)
        (by
          rw [List.forall_mem_enum]
          intro k hk
          exact ⟨hk, rfl⟩)
        (by
          rw [List.enum_eq_enumFrom, List.enumFrom_map_fst, ← List.range_eq_range']
          exact List.pairwise_lt_range _)
        (le_refl 0)
        (by
          rw [List.enum_length]
          simp)
        (by positivity)
        (by
          intro k hk hknot
          exfalso
          apply hknot (k, (uniqueLexsorted loss)[k])
          · rw [List.mk_mem_enum_iff_getElem?]
            exact List.getElem?_eq_getElem hk
          · rfl)
        (by
          intro k l hk hl hkl hknot
          exfalso
          apply hknot (l, (uniqueLexsorted loss)[l])
          · rw [List.mk_mem_enum_iff_getElem?]
            exact List.getElem?_eq_getElem hl
          · rfl)
        hloop
      rcases hsound with ⟨hlenU, rfinal, hr0, hrnb, hbounds, hcount, hmono⟩
      -- the whole budget is the input length, so every unique row resolves
      have hUlen : (uniqueLexsorted loss).length ≤ loss.length :=
        uniqueLexsorted_length_le loss
      have hcount2 : loss.length ≤
          ((List.range (uniqueLexsorted loss).length).countP fun k =>
            decide (ranksU.getD k 0 < rfinal)) := by
        rw [← hnb]
        exact hcount
      have hcount' : ((List.range (uniqueLexsorted loss).length).countP fun k =>
          decide (ranksU.getD k 0 < rfinal)) =
          (List.range (uniqueLexsorted loss).length).length := by
        have h1 := List.countP_le_length
          (p := fun k => decide (ranksU.getD k 0 < rfinal))
          (l := List.range (uniqueLexsorted loss).length)
        rw [List.length_range] at h1 ⊢
        omega
      have hall := List.countP_eq_length.1 hcount'
      have hresolved : ∀ k : Nat, k < (uniqueLexsorted loss).length →
          ranksU.getD k 0 < rfinal := by
        intro k hk
        have := hall k (List.mem_range.2 hk)
        rwa [decide_eq_true_eq] at this
      -- translate original indices to unique indices
      have himem : loss[i] ∈ uniqueLexsorted loss :=
        mem_uniqueLexsorted.2 (List.getElem_mem hi)
      have hjmem : loss[j] ∈ uniqueLexsorted loss :=
        mem_uniqueLexsorted.2 (List.getElem_mem hj)
      have hiu := indexOf_lt_length_of_mem himem
      have hju := indexOf_lt_length_of_mem hjmem
      have hgu_i : (uniqueLexsorted loss)[(uniqueLexsorted loss).indexOf
          (loss[i])] = loss[i] := getElem_indexOf_of_mem himem hiu
      have hgu_j : (uniqueLexsorted loss)[(uniqueLexsorted loss).indexOf
          (loss[j])] = loss[j] := getElem_indexOf_of_mem hjmem hju
      have hdomU : VecDom
          ((uniqueLexsorted loss)[(uniqueLexsorted loss).indexOf
            (loss[i])])
          ((uniqueLexsorted loss)[(uniqueLexsorted loss).indexOf
            (loss[j])]) := by
        rw [hgu_i, hgu_j]
        exact hdom
      have hfin := hmono _ _ hiu hju hdomU (hresolved _ hju)
      rw [getD_map_of_lt _ _ _ hi, getD_map_of_lt _ _ _ hj]
      exact hfin

/-- C7 (witness): the theorem applied to `[[0,0],[1,1]]`, where `(0,0)`
dominates `(1,1)` and the computed ranks are `[0, 1]`. -/
theorem C7_rank_dominance_monotonic_witness :
    (calculateNondominationRank ([[0, 0], [1, 1]] : List (List ℤ)) none =
        some [0, 1]) ∧
      (0 : Int) < 1 :=
  ⟨by decide,
    C7_rank_dominance_monotonic 2 ([[0, 0], [1, 1]] : List (List ℤ)) [0, 1]
      (by decide) (by decide) 0 1 (by decide) (by decide) (by decide)⟩

/-- C8 (amended): for every rectangular input with at least two objectives
and every positive budget `k`, when `_calculate_nondomination_rank` with
`n_below = k` returns it assigns a catch-all bound `R ≤ k` with every rank
in `[0, R]`, at most `k` distinct ranks strictly below `R`, and at least
`min k n` elements ranked strictly below `R`; every element not resolved
below `R` receives exactly `R`. -/
theorem C8_n_below_budget {α : Type} [LinearOrder α] [Inhabited α]
    (m : Nat) (loss : List (List α)) (k : Int) (ranks : List Int)
    (hrect : ∀ r ∈ loss, r.length = m) (hm : 2 ≤ m) (hk : 0 < k)
    (hcalc : calculateNondominationRank loss (some k) = some ranks) :
    ∃ R : Int, 0 ≤ R ∧ R ≤ k ∧
      (∀ r ∈ ranks, 0 ≤ r ∧ r ≤ R) ∧
      ((ranks.toFinset.filter fun r => r < R).card ≤ k.toNat) ∧
      min k (loss.length : Int) ≤ (ranks.countP fun r => decide (r < R)) := by
  have hguard : nBelowNonpos (some k) = false := by
    show decide (k ≤ 0) = false
    rw [decide_eq_false_iff_not]
    omega
  have hpy : pyOrLen (some k) loss.length = k := by
    show (if k = 0 then (loss.length : Int) else k) = k
    rw [if_neg (by omega)]
  simp only [calculateNondominationRank] at hcalc
  rw [if_neg (by simp [hguard])] at hcalc
  cases loss with
  | nil =>
    have hnb0 : (min (pyOrLen (some k) (List.length ([] : List (List α))))
        ((List.length ([] : List (List α)) : Int))).toNat = 0 := by
      rw [show List.length ([] : List (List α)) = 0 from rfl] at hpy ⊢
      rw [hpy]
      rw [show ((0 : Nat) : Int) = 0 from rfl, min_eq_right (le_of_lt hk)]
      rfl
    rw [hnb0] at hcalc
    have hrl : rankLoop (numObjectives ([] : List (List α)))
        (uniqueLexsorted ([] : List (List α))).length 0
        ((uniqueLexsorted ([] : List (List α))).length + 1)
        (List.replicate (uniqueLexsorted ([] : List (List α))).length 0)
        (uniqueLexsorted ([] : List (List α))).enum 0 = some [] := by
      rw [rankLoop]
      rfl
    rw [if_neg (show ¬(numObjectives ([] : List (List α)) = 1) by simp [numObjectives])] at hcalc
    rw [hrl] at hcalc
    obtain rfl := (Option.some.inj hcalc).symm
    refine ⟨0, le_refl _, le_of_lt hk, ?_, ?_, ?_⟩
    · intro r hr
      simp at hr
    · simp
    · simp [min_eq_right (le_of_lt hk)]
  | cons r0 rest =>
    generalize hL : (r0 :: rest : List (List α)) = loss at *
    have hne : loss ≠ [] := by rw [← hL]; exact List.cons_ne_nil _ _
    have hnum : numObjectives loss = m := by
      rcases List.exists_cons_of_ne_nil hne with ⟨s0, srest, rfl⟩
      exact hrect s0 (List.mem_cons_self _ _)
    rw [if_neg (by omega)] at hcalc
    cases hloop : rankLoop (numObjectives loss) (uniqueLexsorted loss).length
        ((min (pyOrLen (some k) loss.length) (loss.length : Int)).toNat)
        ((uniqueLexsorted loss).length + 1)
        (List.replicate (uniqueLexsorted loss).length 0)
        (uniqueLexsorted loss).enum 0 with
    | none =>
      rw [hloop] at hcalc
      exact absurd hcalc (by simp)
    | some ranksU =>
      rw [hloop] at hcalc
      obtain rfl := (Option.some.inj hcalc).symm
      have hUrect : ∀ r ∈ uniqueLexsorted loss,
          r.length = numObjectives loss := by
        intro r hr
        rw [hnum]
        exact hrect r (mem_uniqueLexsorted.1 hr)
      have hsound := rankLoop_sound (numObjectives loss) (uniqueLexsorted loss)
        (by omega : 1 ≤ numObjectives loss) hUrect
        (uniqueLexsorted_pairwise loss)
        ((min (pyOrLen (some k) loss.length) (loss.length : Int)).toNat)
        ((uniqueLexsorted loss).length + 1)
        (List.replicate (uniqueLexsorted loss).length 0)
        (uniqueLexsorted loss).enum 0 ranksU
        (by simp)
        (by
          rw [List.forall_mem_enum]
          intro kk hkk
          exact ⟨hkk, rfl⟩)
        (by
          rw [List.enum_eq_enumFrom, List.enumFrom_map_fst, ← List.range_eq_range']
          exact List.pairwise_lt_range _)
        (le_refl 0)
        (by
          rw [List.enum_length]
          simp)
        (by positivity)
        (by
          intro kk hkk hknot
          exfalso
          apply hknot (kk, (uniqueLexsorted loss)[kk])
          · rw [List.mk_mem_enum_iff_getElem?]
            exact List.getElem?_eq_getElem hkk
          · rfl)
        (by
          intro kk l hkk hl hkl hknot
          exfalso
          apply hknot (l, (uniqueLexsorted loss)[l])
          · rw [List.mk_mem_enum_iff_getElem?]
            exact List.getElem?_eq_getElem hl
          · rfl)
        hloop
      rcases hsound with ⟨hlenU, R, hc0, hcnb, hbounds, hcount, hmono⟩
      have hcast : (((min (pyOrLen (some k) loss.length)
          (loss.length : Int)).toNat : Nat) : Int) =
          min k (loss.length : Int) := by
        rw [hpy]
        exact Int.toNat_of_nonneg (le_min (le_of_lt hk) (by positivity))
      refine ⟨R, hc0, ?_, ?_, ?_, ?_⟩
      · calc R ≤ _ := hcnb
          _ = min k (loss.length : Int) := hcast
          _ ≤ k := min_le_left _ _
      · intro r hr
        rcases List.mem_map.1 hr with ⟨row, hrow, hfr⟩
        have hmemU : row ∈ uniqueLexsorted loss :=
          mem_uniqueLexsorted.2 hrow
        have hidx : (uniqueLexsorted loss).indexOf row <
            (uniqueLexsorted loss).length := indexOf_lt_length_of_mem hmemU
        rw [← hfr]
        exact hbounds _ hidx
      · -- at most k distinct ranks strictly below the catch-all bound
        have hRk : R ≤ k := by
          calc R ≤ _ := hcnb
            _ = min k (loss.length : Int) := hcast
            _ ≤ k := min_le_left _ _
        have hmap : ∀ x ∈ ((loss.map fun r =>
            ranksU.getD ((uniqueLexsorted loss).indexOf r) 0).toFinset.filter
              fun r => r < R), Int.toNat x ∈ Finset.range R.toNat := by
          intro x hx
          rcases Finset.mem_filter.1 hx with ⟨hxm, hxR⟩
          rw [List.mem_toFinset] at hxm
          rcases List.mem_map.1 hxm with ⟨row, hrow, hfr⟩
          have hx0 : 0 ≤ x := by
            rw [← hfr]
            exact (hbounds _ (indexOf_lt_length_of_mem
              (mem_uniqueLexsorted.2 hrow))).1
          rw [Finset.mem_range]
          omega
        have hinj : Set.InjOn Int.toNat ((loss.map fun r =>
            ranksU.getD ((uniqueLexsorted loss).indexOf r) 0).toFinset.filter
              fun r => r < R) := by
          intro x hx y hy hxy
          rw [Finset.mem_coe] at hx hy
          rcases Finset.mem_filter.1 hx with ⟨hxm, hxR⟩
          rcases Finset.mem_filter.1 hy with ⟨hym, hyR⟩
          rw [List.mem_toFinset] at hxm hym
          rcases List.mem_map.1 hxm with ⟨rowx, hrowx, hfx⟩
          rcases List.mem_map.1 hym with ⟨rowy, hrowy, hfy⟩
          have hx0 : 0 ≤ x := by
            rw [← hfx]
            exact (hbounds _ (indexOf_lt_length_of_mem
              (mem_uniqueLexsorted.2 hrowx))).1
          have hy0 : 0 ≤ y := by
            rw [← hfy]
            exact (hbounds _ (indexOf_lt_length_of_mem
              (mem_uniqueLexsorted.2 hrowy))).1
          omega
        calc ((loss.map fun r =>
              ranksU.getD ((uniqueLexsorted loss).indexOf r) 0).toFinset.filter
                fun r => r < R).card
            ≤ (Finset.range R.toNat).card :=
              Finset.card_le_card_of_injOn Int.toNat hmap hinj
          _ = R.toNat := Finset.card_range _
          _ ≤ k.toNat := Int.toNat_le_toNat hRk
      · -- at least min k n elements resolve strictly below the bound
        rw [List.countP_map]
        have hsubcount : ((uniqueLexsorted loss).countP fun row =>
            decide (ranksU.getD ((uniqueLexsorted loss).indexOf row) 0 < R)) ≤
            loss.countP fun row =>
              decide (ranksU.getD ((uniqueLexsorted loss).indexOf row) 0 < R) :=
          nodup_subset_countP_le (uniqueLexsorted_nodup loss)
            (fun x hx => mem_uniqueLexsorted.1 hx) _
        have hrangecount : ((uniqueLexsorted loss).countP fun row =>
            decide (ranksU.getD ((uniqueLexsorted loss).indexOf row) 0 < R)) =
            ((List.range (uniqueLexsorted loss).length).countP fun i =>
              decide (ranksU.getD i 0 < R)) := by
          rw [← map_indexOf_eq_range (uniqueLexsorted_nodup loss),
            List.countP_map]
          rfl
        rw [← hcast]
        have h1 : ((min (pyOrLen (some k) loss.length)
            (loss.length : Int)).toNat : Nat) ≤
            loss.countP fun row =>
              decide (ranksU.getD ((uniqueLexsorted loss).indexOf row) 0 < R) := by
          calc _ ≤ _ := hcount
            _ = _ := hrangecount.symm
            _ ≤ _ := hsubcount
        exact_mod_cast h1

/-- C8 (witness): the theorem applied to the input `[[0,0],[1,1],[2,2]]`
with budget `k = 1`, whose computed ranks are `[0, 1, 1]`. -/
theorem C8_n_below_budget_witness :
    ∃ R : Int, 0 ≤ R ∧ R ≤ 1 ∧
      (∀ r ∈ ([0, 1, 1] : List Int), 0 ≤ r ∧ r ≤ R) ∧
      ((([0, 1, 1] : List Int).toFinset.filter fun r => r < R).card ≤
        (1 : Int).toNat) ∧
      min 1 (([[0, 0], [1, 1], [2, 2]] : List (List ℤ)).length : Int) ≤
        (([0, 1, 1] : List Int).countP fun r => decide (r < R)) :=
  C8_n_below_budget 2 ([[0, 0], [1, 1], [2, 2]] : List (List ℤ)) 1 [0, 1, 1]
    (by decide) (by decide) (by decide) (by decide)

/-- C9 (counterexample): on the empty single-column array (zero rows, one
objective, a shape NumPy represents as `(0, 1)`), `_is_pareto_front` raises
IndexError at the first-row read `unique_lexsorted_loss_values[0]` instead
of returning the empty non-domination mask, so the original claim fails at
width 1 on empty input. -/
theorem C9_counterexample_empty_1d :
    isParetoFrontChecked 1 ([] : List (List ℚ)) = Except.error indexErrorMsg ∧
      paretoMaskSpec ([] : List (List ℚ)) = [] :=
  ⟨rfl, rfl⟩

/-- C9: for every deduplicated, lexicographically ordered array of value
vectors of any width `m ≥ 1` (each row of length `m`), nonempty when
`m = 1` (the 1-D branch reads the first row and raises IndexError on an
empty array), `_is_pareto_front` returns the mask marking exactly the
vectors not dominated by any other vector of the array, where `u` dominates
`v` means elementwise `≤` and `u ≠ v` — covering the 1-D, 2-D and general
variants it dispatches to. -/
theorem C9_is_pareto_front_correct {α : Type} [LinearOrder α] [Inhabited α]
    (m : Nat) (l : List (List α)) (hm : 1 ≤ m) (hne : m = 1 → l ≠ [])
    (hrect : ∀ r ∈ l, r.length = m)
    (hsort : l.Pairwise fun a b => rowLtB a b = true) :
    isParetoFrontChecked m l = Except.ok (paretoMaskSpec l) := by
  rw [isParetoFrontChecked_ok m l hne, isParetoFront_correct m l hm hrect hsort]

/-- C9 (witness): the theorem applied to the sorted deduplicated one-column
array `[[3], [5], [7]]` — exercising the 1-D branch on nonempty input —
whose computed mask `[true, false, false]` matches the spec mask (`[5]` and
`[7]` are each dominated by `[3]`). -/
theorem C9_is_pareto_front_correct_witness :
    isParetoFrontChecked 1 ([[3], [5], [7]] : List (List ℤ)) =
        Except.ok (paretoMaskSpec ([[3], [5], [7]] : List (List ℤ))) ∧
      isParetoFrontChecked 1 ([[3], [5], [7]] : List (List ℤ)) =
        Except.ok [true, false, false] :=
  ⟨C9_is_pareto_front_correct 1 [[3], [5], [7]] (by decide) (by decide)
      (by decide) (by decide),
    by decide⟩

/-- C10: shape mismatches are rejected with an error and no partial result:
`_dominates` on two COMPLETE trials errors whenever the two value vectors
have different lengths or the value length differs from the direction
count, and `_fast_non_dominated_sort` errors whenever the supplied penalty
length differs from the number of loss vectors. -/
theorem C10_shape_mismatch_rejected :
    (∀ (t0 t1 : Trial) (dirs : List StudyDirection),
        t0.state = .complete → t1.state = .complete →
        t0.values.length ≠ t1.values.length ∨ t0.values.length ≠ dirs.length →
        ∃ e, dominates t0 t1 dirs = .error e) ∧
      ∀ (α : Type) [LinearOrder α] [Inhabited α] [Zero α]
        (loss : List (List α)) (pen : List (Option α)) (nBelow : Option Int),
        pen.length ≠ loss.length →
        fastNonDominatedSort loss (some pen) nBelow = .raise penaltyLengthMsg := by
  constructor
  · intro t0 t1 dirs h0 h1 hmm
    rw [dominates, if_neg (by rw [h0]; exact fun h => h rfl),
      if_neg (by rw [h1]; exact fun h => h rfl)]
    by_cases hv : t0.values.length = t1.values.length
    · rcases hmm with hmm | hmm
      · exact absurd hv hmm
      · exact ⟨mismatchedDirectionsMsg, by rw [if_neg (fun h => h hv), if_pos hmm]⟩
    · exact ⟨mismatchedTrialsMsg, by rw [if_pos hv]⟩
  · intro α _ _ _ loss pen nBelow hne
    rw [fastNonDominatedSort, if_pos hne]

/-- C10 (witness): scenario D (`len(values) = 2` vs `len(directions) = 3`)
errors on `_dominates`, and a one-record loss array with an empty penalty
array errors on `_fast_non_dominated_sort`. -/
theorem C10_shape_mismatch_rejected_witness :
    (∃ e, dominates ⟨0, .complete, [some 1, some 2], none⟩
        ⟨1, .complete, [some 3, some 4], none⟩
        [.minimize, .minimize, .minimize] = .error e) ∧
      fastNonDominatedSort ([[1]] : List (List ℤ)) (some []) none =
        .raise penaltyLengthMsg :=
  ⟨C10_shape_mismatch_rejected.1 ⟨0, .complete, [some 1, some 2], none⟩
      ⟨1, .complete, [some 3, some 4], none⟩ [.minimize, .minimize, .minimize]
      rfl rfl (Or.inr (by decide)),
    C10_shape_mismatch_rejected.2 ℤ [[1]] [] none (by decide)⟩

end MultiObjective
